import Mathlib

/-!
# Verification of the parsedantic schema-driven text codec

Shallow embedding of the parsedantic library (a schema-driven bidirectional
codec generator built on the parsy combinator library) and proofs about it.

The embedding covers, faithfully to the Python source:

* the primitive parsers of `src/parsedantic/parsers.py` and
  `src/parsedantic/primitives/` (`integer`, `float` is out of scope,
  `pattern(r"\S+")`, `whitespace`, `string` literals), including the exact
  backtracking semantics of the Python regular expression
  `-?\d+(?![.eE])` used by `integer()`;
* the parsy combinators the library uses (`|`, `optional`, `then`,
  `result`, `sep_by`, `seq(...).map(to_mapping)`, `success`,
  `forward_declaration`), as a deep parser AST `P` with a fueled
  evaluator `runP` (fuel only bounds the recursion depth; the library's
  parsers always terminate, and every theorem below either quantifies
  over the fuel or uses an explicitly sufficient amount);
* type-driven parser generation: `generator.generate_field_parser`,
  `generator.build_model_parser` (with the per-model base-type parser
  cache, strict/lenient optional handling and separator interleaving)
  and the configuration lookup `generator._get_field_separator` /
  `generator._get_strict_optional` / `config.get_parse_config`;
* the codec pipeline: `inference/basic.py` + `inference/container.py`
  type inference, `core/parser.py` formatters, and
  `codec.TextCodec._build_combined_parser` / `TextCodec.serialize`;
* the error translator `errors.get_line_column` and
  `errors.ParseError.from_parsy_error`.

Character classes are the ASCII fragment of Python's `\s` and `\d`
(all inputs considered here are ASCII).  Python `dict`s keyed by field
names are modelled as association lists with distinct keys, matching
pydantic's `model_fields`.  A pydantic model instance is identified with
the mapping of its field values (`model_validate` of a mapping is the
identity at this level of abstraction).
-/

namespace Parsedantic

/-- ASCII characters matched by the regex class `\s` (Python `re`). -/
def isSpaceChar (c : Char) : Bool :=
  c = ' ' || c = '\t' || c = '\n' || c = '\r' || c = '\x0b' || c = '\x0c'

/-- ASCII characters matched by the regex class `\d`. -/
def isDigitChar (c : Char) : Bool :=
  '0' ≤ c && c ≤ '9'

/-- The characters `.`, `e`, `E` excluded by the negative lookahead in
`parsers.integer` (`src/parsedantic/parsers.py` line 40 and
`src/parsedantic/primitives/numeric.py` line 12). -/
def isFloatMarker (c : Char) : Bool :=
  c = '.' || c = 'e' || c = 'E'

/-- Numeric value of a digit string (Python `int` applied to a run of
digits; leading zeros allowed). -/
def digitsToNat (ds : List Char) : Nat :=
  ds.foldl (fun a c => a * 10 + (c.toNat - 48)) 0

/-- Split a nonempty list (given as head and tail) into its leading part
and its last element. -/
def splitLast (d : Char) : List Char → List Char × Char
  | [] => ([], d)
  | e :: es =>
    let (ini, la) := splitLast e es
    (d :: ini, la)

/-- Matcher of the digit part of `-?\d+(?![.eE])` with Python `re`
backtracking semantics: the greedy run `\d+` first takes the maximal
digit run; if the following character is one of `.`, `e`, `E`, the run
backtracks by one digit (the character after the shortened run is then a
digit, so the lookahead succeeds); a single-digit run cannot backtrack
and the whole match fails. -/
def digitsLookahead (input : List Char) : Option (List Char × List Char) :=
  match input.takeWhile isDigitChar, input.dropWhile isDigitChar with
  | [], _ => none
  | d :: ds, c :: cs =>
    if isFloatMarker c then
      match ds with
      | [] => none
      | e :: es =>
        let (ini, la) := splitLast e es
        some (d :: ini, la :: c :: cs)
    else some (d :: ds, c :: cs)
  | d :: ds, [] => some (d :: ds, [])

/-- The full regex `-?\d+(?![.eE])` (an optional sign, then
`digitsLookahead`); returns the matched text and the remaining input. -/
def intRegexMatch (input : List Char) : Option (List Char × List Char) :=
  match input with
  | '-' :: cs => (digitsLookahead cs).map (fun p => ('-' :: p.1, p.2))
  | _ => digitsLookahead input

/-- Python `int(...)` applied to a matched string `-?\d+`. -/
def strToInt (m : List Char) : Int :=
  match m with
  | '-' :: ds => -(digitsToNat ds : Int)
  | _ => (digitsToNat m : Int)

/-- `parsers.integer()` = `regex(r"-?\d+(?![.eE])").map(int)`:
decode a signed base-10 integer at the head of the input. -/
def integerDecode (input : List Char) : Option (Int × List Char) :=
  (intRegexMatch input).map (fun p => (strToInt p.1, p.2))

/-- `pattern(r"\S+")`: maximal nonempty run of non-whitespace characters
(the `str` field parser of `generator.generate_field_parser` and
`primitives.text.string_of`). -/
def nonWSDecode (input : List Char) : Option (List Char × List Char) :=
  match input.takeWhile (fun c => !isSpaceChar c) with
  | [] => none
  | d :: ds => some (d :: ds, input.dropWhile (fun c => !isSpaceChar c))

/-- `parsers.whitespace()` = `regex(r"\s+")`: maximal nonempty run of
whitespace characters. -/
def wsDecode (input : List Char) : Option (List Char × List Char) :=
  match input.takeWhile isSpaceChar with
  | [] => none
  | d :: ds => some (d :: ds, input.dropWhile isSpaceChar)

/-- `parsy.string(text)` (`parsers.literal`): match `text` exactly. -/
def litDecode (s : List Char) (input : List Char) : Option (List Char × List Char) :=
  if s.isPrefixOf input then some (s, input.drop s.length) else none

/-- Universe of decoded Python values: integers, strings, `None`, lists,
and field-name-to-value mappings (both the `dict` produced by a model
parser and a validated model instance, which carries the same data). -/
inductive Val where
  | vint (n : Int)
  | vstr (s : List Char)
  | vnone
  | vlist (vs : List Val)
  | vdict (kvs : List (String × Val))

/-- Deep embedding of the parsy parsers the library builds.

* `pInt` — `integer()` (`regex(r"-?\d+(?![.eE])").map(int)`);
* `pStr` — `pattern(r"\S+")`;
* `pWS` — `whitespace()` (`regex(r"\s+")`);
* `pLit s` — `string(s)` / `literal(s)`;
* `pSuccess v` — `success(v)`;
* `pAlt p q` — `p | q` (tries `q` from the same position when `p` fails);
* `pOpt p` — `p.optional()` (yields `None` without consuming on failure);
* `pThen p q` — `p.then(q)` / `p >> q`;
* `pResult p v` — `p.result(v)`;
* `pSepBy e s` — `e.sep_by(s)` (zero or more, min=0);
* `pSepTail e s` — the internal `(s >> e).many()` tail of `sep_by`;
* `pSelf` — the `forward_declaration()` placeholder for the model whose
  parser is being built (`models.ParsableModel._get_parser`);
* `pFields kvs` — `seq(*parsers).map(to_mapping)`: run the named parsers
  in order and collect a field-name-to-value `dict`. -/
inductive P where
  | pInt
  | pStr
  | pWS
  | pLit (s : List Char)
  | pSuccess (v : Val)
  | pAlt (p q : P)
  | pOpt (p : P)
  | pThen (p q : P)
  | pResult (p : P) (v : Val)
  | pSepBy (e s : P)
  | pSepTail (e s : P)
  | pSelf
  | pFields (kvs : List (String × P))

/-- Fueled evaluator for `P`.  `env` is the parser the
`forward_declaration` placeholder `pSelf` resolves to (after
`placeholder.become(parser)` every captured reference observes the
finished parser; for a model parser built by `build_model_parser` the
environment is that parser itself).

Result: `none` = out of fuel (never happens for the library's parsers at
sufficient fuel); `some none` = parse failure at this position;
`some (some (v, rest))` = success with value `v` and remaining input
`rest`.  One unit of fuel is spent per combinator step, so the fuel
needed is bounded by the parser size times the recursion depth, never by
the input length (primitive token matchers consume characters without
fuel); only `pSepTail` iterations and `pSelf` unfoldings consume
additional fuel. -/
def runP (env : P) : Nat → P → List Char → Option (Option (Val × List Char))
  | 0, _, _ => none
  | _ + 1, .pInt, input =>
    some ((integerDecode input).map (fun p => (Val.vint p.1, p.2)))
  | _ + 1, .pStr, input =>
    some ((nonWSDecode input).map (fun p => (Val.vstr p.1, p.2)))
  | _ + 1, .pWS, input =>
    some ((wsDecode input).map (fun p => (Val.vstr p.1, p.2)))
  | _ + 1, .pLit s, input =>
    some ((litDecode s input).map (fun p => (Val.vstr p.1, p.2)))
  | _ + 1, .pSuccess v, input => some (some (v, input))
  | f + 1, .pAlt p q, input =>
    match runP env f p input with
    | none => none
    | some (some r) => some (some r)
    | some none => runP env f q input
  | f + 1, .pOpt p, input =>
    match runP env f p input with
    | none => none
    | some (some r) => some (some r)
    | some none => some (some (Val.vnone, input))
  | f + 1, .pThen p q, input =>
    match runP env f p input with
    | none => none
    | some none => some none
    | some (some (_, rest)) => runP env f q rest
  | f + 1, .pResult p v, input =>
    match runP env f p input with
    | none => none
    | some none => some none
    | some (some (_, rest)) => some (some (v, rest))
  | f + 1, .pSepBy e s, input =>
    match runP env f e input with
    | none => none
    | some none => some (some (Val.vlist [], input))
    | some (some (v, r1)) =>
      match runP env f (.pSepTail e s) r1 with
      | none => none
      | some none => some none
      | some (some (Val.vlist vs, r2)) => some (some (Val.vlist (v :: vs), r2))
      | some (some _) => some none
  | f + 1, .pSepTail e s, input =>
    match runP env f s input with
    | none => none
    | some none => some (some (Val.vlist [], input))
    | some (some (_, r1)) =>
      match runP env f e r1 with
      | none => none
      | some none => some (some (Val.vlist [], input))
      | some (some (v, r2)) =>
        match runP env f (.pSepTail e s) r2 with
        | none => none
        | some none => some none
        | some (some (Val.vlist vs, r3)) => some (some (Val.vlist (v :: vs), r3))
        | some (some _) => some none
  | f + 1, .pSelf, input => runP env f env input
  | _ + 1, .pFields [], input => some (some (Val.vdict [], input))
  | f + 1, .pFields ((n, fp) :: rest), input =>
    match runP env f fp input with
    | none => none
    | some none => some none
    | some (some (v, r1)) =>
      match runP env f (.pFields rest) r1 with
      | none => none
      | some none => some none
      | some (some (Val.vdict kvs, r2)) => some (some (Val.vdict ((n, v) :: kvs), r2))
      | some (some _) => some none

/-- `Parser.parse` (parsy): run the parser on the whole string and
require all input to be consumed (`<< eof`); `some none` is the
`ParseError` outcome that `models.ParsableModel.parse` converts via
`ParseError.from_parsy_error`. -/
def parseAllEnv (env : P) (fuel : Nat) (p : P) (s : String) : Option (Option Val) :=
  match runP env fuel p s.toList with
  | none => none
  | some none => some none
  | some (some (v, [])) => some (some v)
  | some (some (_, _ :: _)) => some none

mutual
/-- Python type annotations in the fragment the library supports
(`float` and non-string `Literal` values are outside the fragment
considered here).  `aunion ms k` is a `Union[...]` / `A | B | ...`
whose non-`None` members are `ms` (in declaration order, as returned by
`typing.get_args`) and which contains `k` occurrences of `None`;
`alist el` is `list[el]`, `alistNoElem` a bare `list`; `alit vs` is
`Literal[vs...]` over string values; `aself` is a reference to the
`ParsableModel` class whose parser is being generated (the only nested
model shape the claims need). -/
inductive Ann where
  | aint
  | astr
  | alit (vs : List String)
  | alist (el : Ann)
  | alistNoElem
  | aunion (ms : AnnList) (nones : Nat)
  | aself

/-- Ordered list of union members (kept mutual with `Ann` so that
structural recursion over annotations is available). -/
inductive AnnList where
  | anil
  | acons (a : Ann) (rest : AnnList)
end

/-- Insertion of a natural into a sorted list of naturals. -/
def insertSorted (x : Nat) : List Nat → List Nat
  | [] => [x]
  | y :: ys => if x ≤ y then x :: y :: ys else y :: insertSorted x ys

/-- Insertion sort on naturals (kernel-computable, used only to
canonicalize finite sets below). -/
def sortNats : List Nat → List Nat
  | [] => []
  | x :: xs => insertSorted x (sortNats xs)

/-- Removal of adjacent duplicates; on a sorted list this removes all
duplicates. -/
def dedupAdj : List Nat → List Nat
  | [] => []
  | [x] => [x]
  | x :: y :: rest =>
    if x == y then dedupAdj (y :: rest) else x :: dedupAdj (y :: rest)

/-- Canonical form of a finite set of naturals given as a list: sorted
and duplicate-free.  Two lists canonicalize equally exactly when they
have the same underlying set — the model of Python `frozenset`
equality. -/
def canonSet (l : List Nat) : List Nat := dedupAdj (sortNats l)

/-- Injective encoding of a list of naturals as a natural (Cantor
pairing, element by element). -/
def listKey : List Nat → Nat
  | [] => 0
  | x :: xs => Nat.pair x (listKey xs) + 1

/-- Injective encoding of a string as a natural. -/
def strKey (s : String) : Nat := listKey (s.toList.map Char.toNat)

mutual
/-- Canonical key of an annotation, identifying two annotations exactly
when Python `==` (and `hash`, as used by dict keys) identifies the
corresponding annotation objects.  Python compares `Union` arguments as
a frozenset — order- and multiplicity-insensitive, with all `None`
members collapsing to mere `None`-presence — and, likewise, `Literal`
equality compares the values as a frozenset; so the key sorts and
deduplicates union member keys and literal values and records
`min nones 1`.  Every other shape compares structurally. -/
def Ann.keyN : Ann → Nat
  | .aint => Nat.pair 0 0
  | .astr => Nat.pair 1 0
  | .alit vs => Nat.pair 2 (listKey (canonSet (vs.map strKey)))
  | .alist a => Nat.pair 3 (Ann.keyN a)
  | .alistNoElem => Nat.pair 4 0
  | .aunion ms k => Nat.pair 5 (Nat.pair (min k 1) (listKey (canonSet (AnnList.keysN ms))))
  | .aself => Nat.pair 6 0

/-- Canonical keys of a member list, in declaration order. -/
def AnnList.keysN : AnnList → List Nat
  | .anil => []
  | .acons a as => Ann.keyN a :: AnnList.keysN as
end

/-- Python `==` on annotation objects — the key equality of the
`type_parser_cache` dict in `build_model_parser`: equality of canonical
keys.  In particular `int | str == str | int` and
`Literal["a", "b"] == Literal["b", "a"]`. -/
def Ann.beq (a b : Ann) : Bool := Ann.keyN a == Ann.keyN b

/-- `ParseFieldMetadata` (`fields.py` / `models.ParseFieldMetadata`):
an explicit parser, a regex pattern (kept here as the parser that
`pattern(metadata.pattern)` compiles to), and a list separator. -/
structure Meta where
  parser : Option P := none
  pattern : Option P := none
  sepBy : Option P := none

/-- Build-time errors of `generator.generate_field_parser`
(`TypeError` / `NotImplementedError`); `outOfFuel` marks an exhausted
recursion budget and cannot occur at sufficient fuel. -/
inductive GenErr where
  | sepByOnNonList
  | bareList
  | emptyUnion
  | emptyLit
  | unsupported
  | outOfFuel

/-- `generator.is_optional_type`: a `Union` containing at least one
`None` and at least one non-`None` member; the inner type is the single
remaining member, or the `Union` of the remaining members. -/
def isOptionalAnn : Ann → Option Ann
  | .aunion ms k =>
    if k ≥ 1 then
      match ms with
      | .anil => none
      | .acons a .anil => some a
      | _ => some (.aunion ms 0)
    else none
  | _ => none

/-- `generator.is_union_type`: the non-`None` members of a `Union`,
when nonempty. -/
def unionMembersAnn : Ann → Option AnnList
  | .aunion ms _ =>
    match ms with
    | .anil => none
    | _ => some ms
  | _ => none

/-- `generator.is_list_type`: `some (some el)` for `list[el]`,
`some none` for a bare `list`, `none` otherwise. -/
def isListAnn : Ann → Option (Option Ann)
  | .alist el => some (some el)
  | .alistNoElem => some none
  | _ => none

/-- `generator.is_parsable_model` on the embedded fragment: only the
model under construction. -/
def isModelAnn : Ann → Bool
  | .aself => true
  | _ => false

/-- The explicit part of `ParseField` metadata: `metadata.parser` if
given, else the compiled `metadata.pattern`. -/
def metaParserOrPattern : Option Meta → Option P
  | none => none
  | some m =>
    match m.parser with
    | some p => some p
    | none => m.pattern

/-- `metadata.sep_by` when metadata is present. -/
def metaSepBy : Option Meta → Option P
  | none => none
  | some m => m.sepBy

mutual
/-- `generator.generate_field_parser`, fueled (the Python recursion is
structural on the annotation and always terminates; every theorem below
supplies sufficient fuel).  Mirrors the source order exactly:
`sep_by` validation, list handling (element parser from explicit
metadata or recursive generation, then `sep_by`), explicit
parser/pattern override, nested-model check, optional unwrapping,
union alternation (left fold of `|`), `Literal` alternation, then the
scalar table. -/
def generateFieldParserF : Nat → Ann → Option Meta → Bool → Except GenErr P
  | 0, _, _, _ => .error .outOfFuel
  | fuel + 1, ann, meta, ignoreSepBy =>
    if (metaSepBy meta).isSome && (isListAnn ann).isNone && !ignoreSepBy then
      .error .sepByOnNonList
    else
      match isListAnn ann with
      | some none => .error .bareList
      | some (some el) =>
        let eparser : Except GenErr P :=
          match metaParserOrPattern meta with
          | some p => .ok p
          | none => generateFieldParserF fuel el meta true
        match eparser with
        | .error e => .error e
        | .ok ep =>
          match metaSepBy meta, ignoreSepBy with
          | some sp, false => .ok (.pSepBy ep sp)
          | _, _ => .ok (.pSepBy ep .pWS)
      | none =>
        match metaParserOrPattern meta with
        | some p => .ok p
        | none =>
          if isModelAnn ann then .ok .pSelf
          else
            let ft := (isOptionalAnn ann).getD ann
            match unionMembersAnn ft with
            | some ms =>
              match generateMembersF fuel ms meta ignoreSepBy with
              | .error e => .error e
              | .ok [] => .error .emptyUnion
              | .ok (p :: ps) => .ok (ps.foldl P.pAlt p)
            | none =>
              match ft with
              | .alit [] => .error .emptyLit
              | .alit (v :: vs) =>
                .ok ((vs.map (fun s => P.pLit s.toList)).foldl P.pAlt (P.pLit v.toList))
              | .astr => .ok .pStr
              | .aint => .ok .pInt
              | _ => .error .unsupported

/-- Parsers of the members of a union, in declaration order (the list
comprehension in `generate_field_parser`). -/
def generateMembersF : Nat → AnnList → Option Meta → Bool → Except GenErr (List P)
  | 0, _, _, _ => .error .outOfFuel
  | _ + 1, .anil, _, _ => .ok []
  | fuel + 1, .acons a rest, meta, ignoreSepBy =>
    match generateFieldParserF fuel a meta ignoreSepBy with
    | .error e => .error e
    | .ok p =>
      match generateMembersF fuel rest meta ignoreSepBy with
      | .error e => .error e
      | .ok ps => .ok (p :: ps)
end

/-- One declared model field: name, annotation, `ParseField` metadata. -/
structure FieldDef where
  name : String
  ann : Ann
  meta : Option Meta

/-- Optional kind of a field in `build_model_parser`
(`"none"` / `"strict"` / `"lenient"`). -/
inductive OptKind where
  | okNone
  | okStrict
  | okLenient

/-- The optional-unwrapped base type of a field together with its
optional kind (`build_model_parser` lines 345-353). -/
def baseAndKind (strict : Bool) (a : Ann) : Ann × OptKind :=
  match isOptionalAnn a with
  | some inner => (inner, if strict then .okStrict else .okLenient)
  | none => (a, .okNone)

/-- Lookup in the per-model `type_parser_cache` (a Python dict keyed by
the base annotation). -/
def cacheLookup : List (Ann × P) → Ann → Option P
  | [], _ => none
  | (a, p) :: rest, b => if Ann.beq a b then some p else cacheLookup rest b

/-- The per-field loop of `build_model_parser` (lines 345-363): for each
field, compute the base type and optional kind, reuse the cached parser
for that base type or generate and cache a new one. -/
def genFieldEntries (gfuel : Nat) (strict : Bool) :
    List (Ann × P) → List FieldDef → Except GenErr (List (String × P × OptKind))
  | _, [] => .ok []
  | cache, fd :: rest =>
    let bk := baseAndKind strict fd.ann
    match cacheLookup cache bk.1 with
    | some p =>
      match genFieldEntries gfuel strict cache rest with
      | .error e => .error e
      | .ok es => .ok ((fd.name, p, bk.2) :: es)
    | none =>
      match generateFieldParserF gfuel bk.1 fd.meta false with
      | .error e => .error e
      | .ok p =>
        match genFieldEntries gfuel strict ((bk.1, p) :: cache) rest with
        | .error e => .error e
        | .ok es => .ok ((fd.name, p, bk.2) :: es)

/-- `pattern(r"\S+").result(None)`: the shared lenient-mode garbage
token of `build_model_parser` (line 368). -/
def garbageToken : P := .pResult .pStr .vnone

/-- Wrapping of the fields after the first (`build_model_parser` lines
380-390): lenient optional fields become
`separator.then(parser | garbage).optional()`, all others
`separator.then(parser)`. -/
def combineRest (sep : P) : List (String × P × OptKind) → List (String × P)
  | [] => []
  | (n, p, k) :: rest =>
    let c :=
      match k with
      | .okLenient => P.pOpt (.pThen sep (.pAlt p garbageToken))
      | _ => P.pThen sep p
    (n, c) :: combineRest sep rest

/-- Wrapping of the whole field list (`build_model_parser` lines
370-390): the first field is not preceded by the separator and, when
lenient optional, simply becomes `.optional()`. -/
def combineEntries (sep : P) : List (String × P × OptKind) → List (String × P)
  | [] => []
  | (n, p, k) :: rest =>
    let first :=
      match k with
      | .okLenient => P.pOpt p
      | _ => p
    (n, first) :: combineRest sep rest

/-- `generator.build_model_parser`: a model with no fields yields
`success({})`; otherwise the per-field parsers (with the per-model base
type cache) are wrapped with the separator and strict/lenient optional
policy and sequenced into a mapping-producing parser. -/
def buildModelParser (gfuel : Nat) (fields : List FieldDef) (sep : P) (strict : Bool) :
    Except GenErr P :=
  match fields with
  | [] => .ok (.pSuccess (.vdict []))
  | _ =>
    match genFieldEntries gfuel strict [] fields with
    | .error e => .error e
    | .ok entries => .ok (.pFields (combineEntries sep entries))

/-- An inner `ParseConfig` class body: the attributes the generator
reads (`field_separator`, `strict_optional`); a class that omits
`strict_optional` is modelled with the `getattr` default `True`. -/
structure PC where
  fieldSeparator : Option P := none
  strictOptional : Bool := true

/-- Python `getattr(model_class, "ParseConfig", None)`: walk the MRO
(head = the class itself, then its bases) and return the first class
body that declares an inner `ParseConfig`. -/
def getattrPC : List (Option PC) → Option PC
  | [] => none
  | some pc :: _ => some pc
  | none :: rest => getattrPC rest

/-- `generator._get_field_separator`: the declared
`ParseConfig.field_separator` found by `getattr`, defaulting to the
one-or-more-whitespace parser. -/
def getFieldSeparatorOf (mro : List (Option PC)) : P :=
  match getattrPC mro with
  | some pc => pc.fieldSeparator.getD .pWS
  | none => .pWS

/-- `generator._get_strict_optional`: the declared
`ParseConfig.strict_optional` found by `getattr`, defaulting to `True`. -/
def getStrictOptionalOf (mro : List (Option PC)) : Bool :=
  match getattrPC mro with
  | some pc => pc.strictOptional
  | none => true

/-- `config.get_parse_config`: the lookup deliberately inspects only
`model_class.__dict__` (the head of the MRO), never the base classes;
absent a declaration, the module-level default `ParseConfig` (default
separator, `strict_optional = True`) is returned. -/
def getParseConfig (mro : List (Option PC)) : PC :=
  match mro with
  | some pc :: _ => pc
  | _ => {}

/-- `inference/container.py` `is_union`: more than one non-`None`
member (note: stricter than `generator.is_union_type`, which accepts a
single member). -/
def containerUnionMembers : Ann → Option AnnList
  | .aunion ms _ =>
    match ms with
    | .acons _ (.acons _ _) => some ms
    | _ => none
  | _ => none

/-- `inference/basic.py` `infer_parser`: the scalar table
(`int`, `str`; `float` is outside the embedded fragment). -/
def inferBasic : Ann → Option P
  | .aint => some .pInt
  | .astr => some .pStr
  | _ => none

mutual
/-- `inference/container.py` `infer_parser`, fueled: `Optional[T]` →
inner `.optional()`; union → `|` fold over member parsers (or `None`
when any member is uninferable); `list[T]` → element
`.sep_by(whitespace())` (a bare `list` raises `TypeError`); otherwise
the basic scalar table.  `Literal` and nested models are not handled by
this inference and yield `None`. -/
def inferParserF : Nat → Ann → Except GenErr (Option P)
  | 0, _ => .error .outOfFuel
  | fuel + 1, ann =>
    match isOptionalAnn ann with
    | some inner =>
      match inferParserF fuel inner with
      | .error e => .error e
      | .ok (some p) => .ok (some (.pOpt p))
      | .ok none => .ok none
    | none =>
      match containerUnionMembers ann with
      | some ms =>
        match inferMembersF fuel ms with
        | .error e => .error e
        | .ok (some []) => .ok none
        | .ok (some (p :: ps)) => .ok (some (ps.foldl P.pAlt p))
        | .ok none => .ok none
      | none =>
        match isListAnn ann with
        | some none => .error .bareList
        | some (some el) =>
          match inferParserF fuel el with
          | .error e => .error e
          | .ok (some ep) => .ok (some (.pSepBy ep .pWS))
          | .ok none => .ok none
        | none => .ok (inferBasic ann)

/-- Member parsers for a union in `container.infer_parser`; `some none`
as soon as any member is uninferable (`all(p is not None ...)`). -/
def inferMembersF : Nat → AnnList → Except GenErr (Option (List P))
  | 0, _ => .error .outOfFuel
  | _ + 1, .anil => .ok (some [])
  | fuel + 1, .acons a rest =>
    match inferParserF fuel a with
    | .error e => .error e
    | .ok none => .ok none
    | .ok (some p) =>
      match inferMembersF fuel rest with
      | .error e => .error e
      | .ok none => .ok none
      | .ok (some ps) => .ok (some (p :: ps))
end

/-- `inference/basic.py` `get_parser_for_field`: an explicit
`Parsed[T, parser]` annotation has priority, then container inference. -/
def getParserForField (fuel : Nat) (explicit : Option P) (ann : Ann) :
    Except GenErr (Option P) :=
  match explicit with
  | some p => .ok (some p)
  | none => inferParserF fuel ann

/-- `codec.TextCodec._build_field_parsers`: per-field parsers in
declaration order; a `None` inference result raises `TypeError`
("Cannot generate parser for field ..."). -/
def buildFieldParsers (fuel : Nat) :
    List (String × Ann × Option P) → Except GenErr (List (String × P))
  | [] => .ok []
  | (n, ann, explicit) :: rest =>
    match getParserForField fuel explicit ann with
    | .error e => .error e
    | .ok none => .error .unsupported
    | .ok (some p) =>
      match buildFieldParsers fuel rest with
      | .error e => .error e
      | .ok fps => .ok ((n, p) :: fps)

/-- `codec.TextCodec._build_combined_parser`: no fields yields
`success({})`; otherwise `parsy.seq(field1, sep, field2, sep, ...)`
mapped by `to_dict` (which keeps the even positions); the separator is
represented fused into each subsequent field, which produces the same
outcomes. -/
def buildCombined (sep : P) : List (String × P) → P
  | [] => .pSuccess (.vdict [])
  | (n, p) :: rest =>
    .pFields ((n, p) :: rest.map (fun x => (x.1, P.pThen sep x.2)))

/-- Decimal digit characters. -/
def digitChar : Nat → Char
  | 0 => '0'
  | 1 => '1'
  | 2 => '2'
  | 3 => '3'
  | 4 => '4'
  | 5 => '5'
  | 6 => '6'
  | 7 => '7'
  | 8 => '8'
  | _ => '9'

/-- Canonical decimal digits of a natural number, most significant
first, fueled (the recursion halves the number; sufficient fuel is
supplied by `natDigits`). -/
def natDigitsF : Nat → Nat → List Char
  | 0, _ => []
  | fuel + 1, n => if n < 10 then [digitChar n] else natDigitsF fuel (n / 10) ++ [digitChar (n % 10)]

/-- Canonical decimal digits of a natural number (Python `str`). -/
def natDigits (n : Nat) : List Char := natDigitsF (n + 1) n

/-- Python `str` of an `int`: canonical decimal, `-`-prefixed when
negative. -/
def intToDecimal (i : Int) : List Char :=
  if i < 0 then '-' :: natDigits i.natAbs else natDigits i.natAbs

/-- Python `str(...)` of an embedded value (the default formatter of
`core.parser.Parser`).  List and mapping values never reach a default
formatter in the properties proved here (Python would render them via
`repr` of the elements). -/
def pyStr : Val → List Char
  | .vint n => intToDecimal n
  | .vstr s => s
  | .vnone => "None".toList
  | .vlist _ => "[...]".toList
  | .vdict _ => "<model>".toList

/-- Python `sep.join(parts)`. -/
def joinSep (sep : List Char) : List (List Char) → List Char
  | [] => []
  | [p] => p
  | p :: q :: rest => p ++ sep ++ joinSep sep (q :: rest)

/-- The formatter attached to each parser by `core/parser.py` and
`primitives/`: `integer()` carries `str`; `string_of`/`pattern` carry
the default `str`; `literal(text)` always emits `text`; `success`
emits the empty string; `.optional()`, `.map`, `.desc` preserve the
inner formatter; `|`, `.then`, `.result` build a fresh `Parser` without
passing a formatter, so they fall back to the default `str`;
`.sep_by` joins the element formatter's outputs with a hard-coded
single space. -/
def formatP : P → Val → List Char
  | .pInt, v => pyStr v
  | .pStr, v => pyStr v
  | .pWS, v => pyStr v
  | .pLit s, _ => s
  | .pSuccess _, _ => []
  | .pAlt _ _, v => pyStr v
  | .pOpt p, v => formatP p v
  | .pThen _ _, v => pyStr v
  | .pResult _ _, v => pyStr v
  | .pSepBy e _, v =>
    match v with
    | .vlist vs => joinSep (' ' :: []) (vs.map (fun w => formatP e w))
    | _ => pyStr v
  | .pSepTail _ _, v => pyStr v
  | .pSelf, v => pyStr v
  | .pFields _, v => pyStr v

/-- `getattr(instance, field_name)`: the field's value in the model
instance (modelled as its field mapping; the name is always present for
a well-typed instance). -/
def dictGet : List (String × Val) → String → Val
  | [], _ => .vnone
  | (k, v) :: rest, n => if k = n then v else dictGet rest n

/-- `codec.TextCodec.serialize`: format each field's value with that
field's parser formatter and join the parts with the canonical
separator string. -/
def codecSerialize (sepStr : List Char) (fps : List (String × P))
    (inst : List (String × Val)) : List Char :=
  joinSep sepStr (fps.map (fun np => formatP np.2 (dictGet inst np.1)))

/-- The index clamping at the start of `errors.get_line_column`
(lines 85-88): `if index < 0: index = 0; if index > len(text): index =
len(text)`. -/
def clampIdx (text : List Char) (i : Int) : Nat :=
  if i < 0 then 0
  else if i > (text.length : Int) then text.length
  else i.toNat

/-- `text.count("\n", 0, index)`: newlines in the clamped prefix. -/
def countNL (cs : List Char) : Nat :=
  (cs.filter (fun c => c = '\n')).length

/-- `text.rfind("\n", 0, index)`: position of the last newline in the
given prefix, `none` when there is none (Python returns `-1`). -/
def rfindNL : List Char → Option Nat
  | [] => none
  | c :: cs =>
    match rfindNL cs with
    | some j => some (j + 1)
    | none => if c = '\n' then some 0 else none

/-- `errors.get_line_column`: clamp the index, count preceding newlines
for the one-based line, and measure the distance from the most recent
newline (or take `index + 1`) for the one-based column, with the final
`column <= 0` guard of line 99. -/
def getLineColumn (text : List Char) (index : Int) : Nat × Nat :=
  let idx := clampIdx text index
  let pre := text.take idx
  let line := countNL pre + 1
  let column :=
    match rfindNL pre with
    | none => idx + 1
    | some j => idx - j
  (line, if column = 0 then 1 else column)

/-- `errors.ParseError`: the failure enriched with position data.  The
constructor (`__init__`, lines 36-42) stores the raw attributes and
derives `line`/`column` eagerly via `get_line_column`. -/
structure PError where
  text : List Char
  index : Int
  expected : String
  line : Nat
  column : Nat

/-- Construction of `errors.ParseError(text, index, expected)`. -/
def mkPError (text : List Char) (index : Int) (expected : String) : PError :=
  { text := text
    index := index
    expected := expected
    line := (getLineColumn text index).1
    column := (getLineColumn text index).2 }

/-- The `expected` attribute of a parsy failure as seen by
`ParseError.from_parsy_error`: either a set of alternatives (modelled
as the list of the set's distinct elements, in arbitrary order) or a
plain message string. -/
inductive ExpectedRaw where
  | eset (alts : List String)
  | emsg (s : String)

/-- Python `sorted` on strings (lexicographic). -/
def sortStrings (l : List String) : List String :=
  l.mergeSort (fun a b => decide (a ≤ b))

/-- `errors.ParseError.from_parsy_error`: a set of expected
alternatives is normalised to the sorted, `", "`-joined string; any
other `expected` value is used via `str`. -/
def fromParsyError (text : List Char) (index : Int) (raw : ExpectedRaw) : PError :=
  match raw with
  | .eset alts => mkPError text index (String.intercalate ", " (sortStrings alts))
  | .emsg s => mkPError text index s

/-- `models.ParsableModel.parse` through the generator pipeline:
resolve the model parser with `build_model_parser` and run it on the
whole input (`gfuel` is the generation recursion budget, `fuel` the
evaluation budget; both are incidental to the embedding).  `none` =
build error or exhausted budget; `some none` = `ParseError`;
`some (some v)` = the parsed mapping handed to `model_validate`. -/
def modelDecode (gfuel : Nat) (fields : List FieldDef) (sep : P) (strict : Bool)
    (fuel : Nat) (s : String) : Option (Option Val) :=
  match buildModelParser gfuel fields sep strict with
  | .error _ => none
  | .ok p => parseAllEnv p fuel p s

/-- Modelled from the spec: `config.get_field_separator` is imported by
`codec.py` (line 36) but is absent from the source tree; per spec
section 4.4 the default separator decode matcher is one-or-more
whitespace (its canonical encode string, a single space, is
`model/separator.py` `get_separator_string`, which is in the source). -/
def codecDefaultSeparator : P := .pWS

/-- The claim C4 schema `(required: str, optional: int | None)`. -/
def c4Fields : List FieldDef :=
  [⟨"required", .astr, none⟩, ⟨"optional", .aunion (.acons .aint .anil) 1, none⟩]

/-- A `ParseConfig` declaring only `strict_optional = False`. -/
def lenientPC : PC := { strictOptional := false }

/-- The claim C5 schema `Node(value: int, next: Node | None)`. -/
def nodeFields : List FieldDef :=
  [⟨"value", .aint, none⟩, ⟨"next", .aunion (.acons .aself .anil) 1, none⟩]

/-- A `ParseConfig` declaring only `field_separator = literal("->")`. -/
def nodeSepOnlyPC : PC := { fieldSeparator := some (.pLit "->".toList) }

/-- The `ParseConfig` of the repository's forward-reference test:
`field_separator = literal("->")` and `strict_optional = False`. -/
def nodeTestPC : PC :=
  { fieldSeparator := some (.pLit "->".toList), strictOptional := false }

/-- The parser `build_model_parser` produces for `Node` in strict mode. -/
def nodeStrictP : P :=
  .pFields [("value", .pInt), ("next", .pThen (.pLit "->".toList) .pSelf)]

/-- The parser `build_model_parser` produces for `Node` in lenient mode. -/
def nodeLenientP : P :=
  .pFields [("value", .pInt),
    ("next", .pOpt (.pThen (.pLit "->".toList) (.pAlt .pSelf garbageToken)))]

/-- The annotation `int | str`. -/
def intStrUnion : Ann := .aunion (.acons .aint (.acons .astr .anil)) 0

/-- The annotation `str | int`. -/
def strIntUnion : Ann := .aunion (.acons .astr (.acons .aint .anil)) 0

/-- A base class's `ParseConfig` declaring `field_separator =
literal(",")` (the repository test
`test_parseconfig_not_inherited_by_subclasses`). -/
def commaPC : PC := { fieldSeparator := some (.pLit ",".toList) }

/-- The MRO of `Child(Base)` where `Child` declares no `ParseConfig`
and `Base` declares `commaPC`: the child's own `__dict__` has no entry,
the base's does. -/
def childMro : List (Option PC) := [none, some commaPC]

/-- The `Child` schema `(a: int, b: int, c: int)` of the test. -/
def abcFields : List FieldDef :=
  [⟨"a", .aint, none⟩, ⟨"b", .aint, none⟩, ⟨"c", .aint, none⟩]

/-- `ParseField` metadata carrying only an explicit parser override
(`integer()`), for the C7 list-override counterexample. -/
def c7Meta : Meta := { parser := some .pInt }

/-- The codec field parsers for the single-field schema `(x: str)`. -/
def c1Fps : List (String × P) := [("x", .pStr)]

/-- The characters of an optional leading minus sign. -/
def signChars : Bool → List Char
  | true => ['-']
  | false => []

/-- The integer value of an optionally negated digit run (the result of
Python `int` on the matched text). -/
def intValOf : Bool → List Char → Int
  | true, ds => -(digitsToNat ds : Int)
  | false, ds => (digitsToNat ds : Int)

/-- The optional-unwrapped base annotation of a field
(`build_model_parser` lines 346-352; the cache key, independent of the
strict flag). -/
def baseOf (fd : FieldDef) : Ann := (isOptionalAnn fd.ann).getD fd.ann

/-- The first field in declaration order whose base annotation is `b`
(the field whose generation populated the cache entry for `b`). -/
def firstWithBase (fields : List FieldDef) (b : Ann) : Option FieldDef :=
  fields.find? (fun fd => Ann.beq (baseOf fd) b)

/-- Invariant of the `build_model_parser` cache after processing the
prefix `pre`: the cache answers exactly the base annotations
Python-equal (`Ann.beq`) to one seen so far, each with the parser that
was generated for the first such field's own base annotation and
metadata. -/
def CacheInv (gfuel : Nat) (pre : List FieldDef) (cache : List (Ann × P)) : Prop :=
  ∀ b : Ann,
    match firstWithBase pre b with
    | some f0 => ∃ p, generateFieldParserF gfuel (baseOf f0) f0.meta false = .ok p
        ∧ cacheLookup cache b = some p
    | none => cacheLookup cache b = none

/-- Two fields whose base annotations are Python-equal without being
syntactically identical — `int | str` and `str | int` — with different
explicit parser metadata on each (for the C10 witness): the dict keyed
by the annotation treats them as one cache entry, so the second field
silently reuses the first field's parser. -/
def cacheDemoFields : List FieldDef :=
  [⟨"a", intStrUnion, some { parser := some (.pLit "A".toList) }⟩,
   ⟨"b", strIntUnion, some { parser := some (.pLit "B".toList) }⟩]

/-- The parser `container.infer_parser` assigns to a scalar-token row
annotation (`int` or `str`; other annotations do not occur in the
round-trip fragment below). -/
def rowParser : Ann → P
  | .aint => .pInt
  | _ => .pStr

/-- Typing of one schema row (name, annotation, value) in the
round-trip fragment: an `int` field holds an integer, a `str` field
holds a nonempty whitespace-free token. -/
def TokRow : String × Ann × Val → Prop
  | (_, .aint, .vint _) => True
  | (_, .astr, .vstr s) => s ≠ [] ∧ ∀ c ∈ s, isSpaceChar c = false
  | _ => False

/-- The field mapping of a row list (the model instance handed to
`serialize` and produced by `parse`). -/
def rowsDict (l : List (String × Ann × Val)) : List (String × Val) :=
  l.map (fun x => (x.1, x.2.2))

/-- The codec field-parser list of a row list
(`TextCodec._build_field_parsers` output). -/
def rowsFps (l : List (String × Ann × Val)) : List (String × P) :=
  l.map (fun x => (x.1, rowParser x.2.1))

/-- The encoded text of the rows after the first, each preceded by the
canonical single-space separator. -/
def encWithSep : List (String × Ann × Val) → List Char
  | [] => []
  | x :: rest => ' ' :: (formatP (rowParser x.2.1) x.2.2 ++ encWithSep rest)

/- ### Lemmas and theorems ### -/

/-- Fuel monotonicity: a settled outcome (success or parse failure) is
stable under additional fuel. -/
theorem runP_mono (env : P) :
    ∀ (f f' : Nat) (p : P) (input : List Char) (r : Option (Val × List Char)),
      runP env f p input = some r → f ≤ f' → runP env f' p input = some r := by
  intro f
  induction f with
  | zero => intro f' p input r h; simp [runP] at h
  | succ f ih =>
    intro f' p input r h hle
    obtain ⟨f', rfl⟩ : ∃ g, f' = g + 1 := ⟨f' - 1, by omega⟩
    have hle' : f ≤ f' := by omega
    cases p with
    | pInt => exact h
    | pStr => exact h
    | pWS => exact h
    | pLit s => exact h
    | pSuccess v => exact h
    | pAlt p q =>
      simp only [runP] at h ⊢
      cases hp : runP env f p input with
      | none => rw [hp] at h; exact absurd h (by simp)
      | some o =>
        rw [hp] at h
        rw [ih f' p input o hp hle']
        cases o with
        | none => exact ih f' q input r h hle'
        | some pr => exact h
    | pOpt p =>
      simp only [runP] at h ⊢
      cases hp : runP env f p input with
      | none => rw [hp] at h; exact absurd h (by simp)
      | some o =>
        rw [hp] at h
        rw [ih f' p input o hp hle']
        exact h
    | pThen p q =>
      simp only [runP] at h ⊢
      cases hp : runP env f p input with
      | none => rw [hp] at h; exact absurd h (by simp)
      | some o =>
        rw [hp] at h
        rw [ih f' p input o hp hle']
        cases o with
        | none => exact h
        | some pr =>
          obtain ⟨v1, r1⟩ := pr
          exact ih f' q r1 r h hle'
    | pResult p v =>
      simp only [runP] at h ⊢
      cases hp : runP env f p input with
      | none => rw [hp] at h; exact absurd h (by simp)
      | some o =>
        rw [hp] at h
        rw [ih f' p input o hp hle']
        exact h
    | pSepBy e s =>
      simp only [runP] at h ⊢
      cases hp : runP env f e input with
      | none => rw [hp] at h; exact absurd h (by simp)
      | some o =>
        rw [hp] at h
        rw [ih f' e input o hp hle']
        cases o with
        | none => exact h
        | some pr =>
          obtain ⟨v1, r1⟩ := pr
          dsimp only at h ⊢
          cases ht : runP env f (.pSepTail e s) r1 with
          | none => rw [ht] at h; exact absurd h (by simp)
          | some o2 =>
            rw [ht] at h
            rw [ih f' (.pSepTail e s) r1 o2 ht hle']
            exact h
    | pSepTail e s =>
      simp only [runP] at h ⊢
      cases hp : runP env f s input with
      | none => rw [hp] at h; exact absurd h (by simp)
      | some o =>
        rw [hp] at h
        rw [ih f' s input o hp hle']
        cases o with
        | none => exact h
        | some pr =>
          obtain ⟨v1, r1⟩ := pr
          dsimp only at h ⊢
          cases he : runP env f e r1 with
          | none => rw [he] at h; exact absurd h (by simp)
          | some o2 =>
            rw [he] at h
            rw [ih f' e r1 o2 he hle']
            cases o2 with
            | none => exact h
            | some er =>
              obtain ⟨v2, r2⟩ := er
              dsimp only at h ⊢
              cases ht : runP env f (.pSepTail e s) r2 with
              | none => rw [ht] at h; exact absurd h (by simp)
              | some o3 =>
                rw [ht] at h
                rw [ih f' (.pSepTail e s) r2 o3 ht hle']
                exact h
    | pSelf => exact ih f' env input r h hle'
    | pFields kvs =>
      cases kvs with
      | nil => exact h
      | cons hd rest =>
        obtain ⟨n, fp⟩ := hd
        simp only [runP] at h ⊢
        cases hp : runP env f fp input with
        | none => rw [hp] at h; exact absurd h (by simp)
        | some o =>
          rw [hp] at h
          rw [ih f' fp input o hp hle']
          cases o with
          | none => exact h
          | some pr =>
            obtain ⟨v1, r1⟩ := pr
            dsimp only at h ⊢
            cases ht : runP env f (.pFields rest) r1 with
            | none => rw [ht] at h; exact absurd h (by simp)
            | some o2 =>
              rw [ht] at h
              rw [ih f' (.pFields rest) r1 o2 ht hle']
              exact h

/-- `Ann.beq` is reflexive (every annotation object equals itself). -/
theorem Ann.beq_refl_ann (a : Ann) : Ann.beq a a = true := by
  simp [Ann.beq]

/-- Beq-equal annotations have equal canonical keys. -/
theorem Ann.key_eq_of_beq {a b : Ann} (h : Ann.beq a b = true) :
    Ann.keyN a = Ann.keyN b := by
  simpa [Ann.beq] using h

/-- `Ann.beq` is invariant under a beq-equal right-hand side. -/
theorem Ann.beq_congr (x : Ann) {b b' : Ann} (h : Ann.beq b b' = true) :
    Ann.beq x b = Ann.beq x b' := by
  unfold Ann.beq
  rw [Ann.key_eq_of_beq h]

/-- A Python dict lookup (here: the `type_parser_cache`) gives the same
answer on `==`-equal keys. -/
theorem cacheLookup_congr (cache : List (Ann × P)) {b b' : Ann}
    (h : Ann.beq b b' = true) : cacheLookup cache b = cacheLookup cache b' := by
  induction cache with
  | nil => rfl
  | cons e rest ih =>
    obtain ⟨a, p⟩ := e
    show (if Ann.beq a b then some p else cacheLookup rest b)
        = (if Ann.beq a b' then some p else cacheLookup rest b')
    rw [Ann.beq_congr a h, ih]

/-- `firstWithBase` finds the same field on beq-equal base
annotations. -/
theorem firstWithBase_congr (fields : List FieldDef) {b b' : Ann}
    (h : Ann.beq b b' = true) :
    firstWithBase fields b = firstWithBase fields b' := by
  unfold firstWithBase
  have hp : (fun fd => Ann.beq (baseOf fd) b) = (fun fd => Ann.beq (baseOf fd) b') := by
    funext fd
    exact Ann.beq_congr (baseOf fd) h
  rw [hp]

/-- C2 (code bug evidence): with `class Base` declaring
`ParseConfig.field_separator = literal(",")` and `class Child(Base)`
declaring no `ParseConfig`, the `getattr`-based lookup of
`generator._get_field_separator` finds the base's configuration through
inheritance, so `Child`'s separator is `","` (not the default
whitespace) and `Child.parse("1 2 3")` raises `ParseError` — while the
exact-type-only lookup `config.get_parse_config` (and the repository's
own test `test_parseconfig_not_inherited_by_subclasses`) give `Child`
the default configuration, under which `"1 2 3"` parses. -/
theorem config_lookup_inherits_base_separator :
    getFieldSeparatorOf childMro = .pLit ",".toList
    ∧ getFieldSeparatorOf childMro ≠ .pWS
    ∧ modelDecode 10 abcFields (getFieldSeparatorOf childMro)
        (getStrictOptionalOf childMro) 80 "1 2 3" = some none
    ∧ getParseConfig childMro = { fieldSeparator := none, strictOptional := true }
    ∧ modelDecode 10 abcFields
        ((getParseConfig childMro).fieldSeparator.getD .pWS)
        (getParseConfig childMro).strictOptional 80 "1 2 3"
      = some (some (.vdict [("a", .vint 1), ("b", .vint 2), ("c", .vint 3)])) :=
  ⟨rfl, fun h => P.noConfusion h, rfl, rfl, rfl⟩

/-- C3 (counterexample): on `"12.5"` the integer field decoder does not
fail — the greedy digit run backtracks past the lookahead and the
decoder succeeds on the proper digit prefix `"1"`, leaving `"2.5"`
unconsumed. -/
theorem integer_succeeds_on_digit_prefix :
    integerDecode "12.5".toList = some (1, "2.5".toList)
    ∧ runP .pInt 50 .pInt "12.5".toList = some (some (.vint 1, "2.5".toList)) :=
  ⟨rfl, rfl⟩

/-- C4: for the schema `(required: str, optional: int | None)` on input
`"text notanint"`, lenient mode (`strict_optional = False`) parses to
`required = "text"`, `optional = None`, while the default strict mode
fails with a `ParseError`. -/
theorem strict_vs_lenient_optional :
    modelDecode 10 c4Fields (getFieldSeparatorOf [some lenientPC])
        (getStrictOptionalOf [some lenientPC]) 60 "text notanint"
      = some (some (.vdict [("required", .vstr "text".toList), ("optional", .vnone)]))
    ∧ modelDecode 10 c4Fields (getFieldSeparatorOf []) (getStrictOptionalOf []) 60
        "text notanint" = some none :=
  ⟨rfl, rfl⟩

/-- C5 (counterexample): for `Node(value: int, next: Node | None)`
configured with only `field_separator = literal("->")` (so the default
strict optional policy applies), decoding `"1"` fails — and so does
`"1->2->3"`, whose innermost node lacks the mandatory `"->"`. -/
theorem node_strict_default_fails :
    modelDecode 10 nodeFields (getFieldSeparatorOf [some nodeSepOnlyPC])
        (getStrictOptionalOf [some nodeSepOnlyPC]) 100 "1" = some none
    ∧ modelDecode 10 nodeFields (getFieldSeparatorOf [some nodeSepOnlyPC])
        (getStrictOptionalOf [some nodeSepOnlyPC]) 100 "1->2->3" = some none :=
  ⟨rfl, rfl⟩

/-- C5 (amended): with the configuration of the repository test —
separator `"->"` and `strict_optional = False` — decoding `"1->2->3"`
yields the three-node chain ending in `next = None`, and `"1"` yields a
single node with `next = None`; the recursion goes through the
`forward_declaration` placeholder. -/
theorem node_recursion_lenient :
    modelDecode 10 nodeFields (getFieldSeparatorOf [some nodeTestPC])
        (getStrictOptionalOf [some nodeTestPC]) 100 "1->2->3"
      = some (some (.vdict [("value", .vint 1),
          ("next", .vdict [("value", .vint 2),
            ("next", .vdict [("value", .vint 3), ("next", .vnone)])])]))
    ∧ modelDecode 10 nodeFields (getFieldSeparatorOf [some nodeTestPC])
        (getStrictOptionalOf [some nodeTestPC]) 100 "1"
      = some (some (.vdict [("value", .vint 1), ("next", .vnone)])) :=
  ⟨rfl, rfl⟩

/-- C6: ordered union decoding is first-match-wins in declaration
order: a field annotated `int | str` decodes `"123"` to the integer
`123`, while `str | int` decodes the same input to the string `"123"`. -/
theorem ordered_union_first_match :
    generateFieldParserF 10 intStrUnion none false = .ok (.pAlt .pInt .pStr)
    ∧ parseAllEnv (.pAlt .pInt .pStr) 50 (.pAlt .pInt .pStr) "123"
        = some (some (.vint 123))
    ∧ generateFieldParserF 10 strIntUnion none false = .ok (.pAlt .pStr .pInt)
    ∧ parseAllEnv (.pAlt .pStr .pInt) 50 (.pAlt .pStr .pInt) "123"
        = some (some (.vstr "123".toList)) :=
  ⟨rfl, rfl, rfl, rfl⟩

/-- C7 (counterexample): for a `list[int]` field carrying the explicit
parser override `integer()`, the generated decode fragment is not the
supplied parser but `integer().sep_by(whitespace())` — the override is
used as the element parser, and the two behave differently on `"1 2"`. -/
theorem explicit_override_not_exact_on_list :
    generateFieldParserF 10 (.alist .aint) (some c7Meta) false
        = .ok (.pSepBy .pInt .pWS)
    ∧ P.pSepBy .pInt .pWS ≠ .pInt
    ∧ parseAllEnv (.pSepBy .pInt .pWS) 50 (.pSepBy .pInt .pWS) "1 2"
        = some (some (.vlist [.vint 1, .vint 2]))
    ∧ parseAllEnv .pInt 50 .pInt "1 2" = some none :=
  ⟨rfl, fun h => P.noConfusion h, rfl, rfl⟩

/-- C1 (counterexample): for the schema `(x: str)` and the constructible
value `x = "a b"`, the encoder emits `"a b"` but decoding that text
fails (the greedy token parser stops at the space and the parse does not
consume the whole input), so `decode(encode(v))` is a failure, not `v`. -/
theorem roundtrip_fails_on_whitespace_string :
    buildFieldParsers 5 [("x", .astr, none)] = .ok c1Fps
    ∧ codecSerialize " ".toList c1Fps [("x", .vstr "a b".toList)] = "a b".toList
    ∧ parseAllEnv (buildCombined codecDefaultSeparator c1Fps) 50
        (buildCombined codecDefaultSeparator c1Fps) "a b" = some none :=
  ⟨rfl, rfl, rfl⟩

/-- C9: a model class with no declared fields gets `success({})` from
both `generator.build_model_parser` and
`codec.TextCodec._build_combined_parser`; that parser consumes nothing
and yields the empty mapping, so the full parse succeeds exactly on the
empty string and fails on every non-empty input. -/
theorem empty_model_full_parse :
    (∀ gf sep strict, buildModelParser gf [] sep strict = .ok (.pSuccess (.vdict [])))
    ∧ (∀ sep, buildCombined sep [] = .pSuccess (.vdict []))
    ∧ (∀ fuel input, runP (.pSuccess (.vdict [])) (fuel + 1) (.pSuccess (.vdict [])) input
        = some (some (.vdict [], input)))
    ∧ ∀ fuel s, parseAllEnv (.pSuccess (.vdict [])) (fuel + 1) (.pSuccess (.vdict [])) s
        = if s = "" then some (some (.vdict [])) else some none := by
  refine ⟨fun gf sep strict => rfl, fun sep => rfl, fun fuel input => rfl, fun fuel s => ?_⟩
  obtain ⟨data⟩ := s
  cases data with
  | nil => rfl
  | cons c cs =>
    have hne : (String.mk (c :: cs)) ≠ "" := by
      intro h
      exact absurd (congrArg String.data h) (by simp)
    rw [if_neg hne]
    rfl

/-- C7 (amended): an explicit parser override wins over type-driven
dispatch for every non-list annotation (provided the metadata carries no
`sep_by`, which is a build-time `TypeError` on non-list fields): the
generated decode fragment is exactly the supplied parser.  For a
`list[T]` annotation the supplied parser instead becomes the element
parser of a separated-list fragment, separated by the metadata's
`sep_by` parser or else by whitespace. -/
theorem explicit_override_priority :
    (∀ (fuel : Nat) (ann : Ann) (m : Meta) (x : P),
      m.parser = some x → isListAnn ann = none → m.sepBy = none →
      generateFieldParserF (fuel + 1) ann (some m) false = .ok x)
    ∧ ∀ (fuel : Nat) (el : Ann) (m : Meta) (x : P),
      m.parser = some x →
      generateFieldParserF (fuel + 1) (.alist el) (some m) false
        = .ok (.pSepBy x (m.sepBy.getD .pWS)) := by
  constructor
  · intro fuel ann m x hp hlist hsep
    simp only [generateFieldParserF, metaSepBy, hsep, Option.isSome_none, Bool.false_and,
      Bool.and_false, hlist, metaParserOrPattern, hp]
    rfl
  · intro fuel el m x hp
    simp only [generateFieldParserF, metaSepBy, isListAnn, Option.isNone_some,
      Bool.and_false, Bool.false_and, metaParserOrPattern, hp]
    cases hm : m.sepBy <;> rfl

/-- Witness for C7's amended theorem at concrete inputs: a non-list
`int` field with override `literal("X")` yields exactly that literal
parser; the `list[int]` field with override `integer()` yields the
separated-list fragment. -/
theorem explicit_override_priority_witness :
    generateFieldParserF 3 .aint (some { parser := some (.pLit "X".toList) }) false
      = .ok (.pLit "X".toList)
    ∧ generateFieldParserF 3 (.alist .aint) (some c7Meta) false
      = .ok (.pSepBy .pInt .pWS) := by
  constructor
  · exact explicit_override_priority.1 2 .aint { parser := some (.pLit "X".toList) }
      (.pLit "X".toList) rfl rfl rfl
  · exact explicit_override_priority.2 2 .aint c7Meta .pInt rfl

/-- The maximal prefix/suffix split of `takeWhile`/`dropWhile` around a
boundary: a block that satisfies the predicate followed by a remainder
whose head does not. -/
theorem span_append (p : Char → Bool) :
    ∀ (xs ys : List Char), (∀ x ∈ xs, p x = true) →
      (∀ c, ys.head? = some c → p c = false) →
      (xs ++ ys).takeWhile p = xs ∧ (xs ++ ys).dropWhile p = ys := by
  intro xs
  induction xs with
  | nil =>
    intro ys h1 h2
    cases ys with
    | nil => exact ⟨rfl, rfl⟩
    | cons c cs =>
      have hc : p c = false := h2 c rfl
      simp [List.takeWhile_cons, List.dropWhile_cons, hc]
  | cons x xs ih =>
    intro ys h1 h2
    have hx : p x = true := h1 x (by simp)
    have hih := ih ys (fun y hy => h1 y (by simp [hy])) h2
    simp [List.takeWhile_cons, List.dropWhile_cons, hx, hih.1, hih.2]

/-- `splitLast` computes the leading part and last element. -/
theorem splitLast_spec :
    ∀ (l : List Char) (d : Char),
      splitLast d l = ((d :: l).dropLast, (d :: l).getLast (by simp)) := by
  intro l
  induction l with
  | nil => intro d; rfl
  | cons e es ih =>
    intro d
    simp only [splitLast, ih e]
    constructor

/-- A float marker is not a digit. -/
theorem marker_not_digit : ∀ c : Char, isFloatMarker c = true → isDigitChar c = false := by
  intro c h
  simp only [isFloatMarker, Bool.or_eq_true, decide_eq_true_eq] at h
  rcases h with (rfl | rfl) | rfl <;> decide

/-- `digitsLookahead` on a digit block with no trailing marker: the
whole block matches. -/
theorem digitsLookahead_no_marker (ds rest : List Char) (h1 : ds ≠ [])
    (h2 : ∀ x ∈ ds, isDigitChar x = true)
    (h3 : ∀ c, rest.head? = some c → isDigitChar c = false ∧ isFloatMarker c = false) :
    digitsLookahead (ds ++ rest) = some (ds, rest) := by
  obtain ⟨sp1, sp2⟩ := span_append isDigitChar ds rest h2 (fun c hc => (h3 c hc).1)
  unfold digitsLookahead
  rw [sp1, sp2]
  cases ds with
  | nil => exact absurd rfl h1
  | cons d ds' =>
    cases rest with
    | nil => rfl
    | cons c cs => simp [(h3 c rfl).2]

/-- `digitsLookahead` on a single digit followed by a marker: no match
(the single-digit run cannot backtrack). -/
theorem digitsLookahead_marker_single (d c : Char) (cs : List Char)
    (hd : isDigitChar d = true) (hm : isFloatMarker c = true) :
    digitsLookahead ([d] ++ c :: cs) = none := by
  obtain ⟨sp1, sp2⟩ := span_append isDigitChar [d] (c :: cs)
    (by intro x hx; simp at hx; rw [hx]; exact hd)
    (by intro x hx; simp at hx; subst hx; exact marker_not_digit c hm)
  unfold digitsLookahead
  rw [sp1, sp2]
  simp [hm]

/-- `digitsLookahead` on a multi-digit run followed by a marker: the
greedy run backtracks one digit and matches all but the last digit. -/
theorem digitsLookahead_marker_multi (d e : Char) (es : List Char) (c : Char)
    (cs : List Char) (h2 : ∀ x ∈ d :: e :: es, isDigitChar x = true)
    (hm : isFloatMarker c = true) :
    digitsLookahead ((d :: e :: es) ++ c :: cs)
      = some ((d :: e :: es).dropLast,
          (d :: e :: es).getLast (by simp) :: c :: cs) := by
  obtain ⟨sp1, sp2⟩ := span_append isDigitChar (d :: e :: es) (c :: cs) h2
    (by intro x hx; simp at hx; subst hx; exact marker_not_digit c hm)
  unfold digitsLookahead
  rw [sp1, sp2]
  simp only [hm, if_true, splitLast_spec]
  rfl

/-- On input not starting with a minus sign, the sign branch of the
integer regex is skipped. -/
theorem intRegexMatch_cons_not_dash (d : Char) (tail : List Char) (hd : ¬(d = '-')) :
    intRegexMatch (d :: tail) = digitsLookahead (d :: tail) := by
  unfold intRegexMatch
  split
  · rename_i cs heq
    injection heq with he1 he2
    exact absurd he1 hd
  · rfl

/-- Python `int` on a matched string not starting with a minus sign. -/
theorem strToInt_cons_not_dash (d : Char) (tail : List Char) (hd : ¬(d = '-')) :
    strToInt (d :: tail) = (digitsToNat (d :: tail) : Int) := by
  unfold strToInt
  split
  · rename_i ds heq
    injection heq with he1 he2
    exact absurd he1 hd
  · rfl

/-- A digit is not a minus sign. -/
theorem digit_ne_dash (d : Char) (h : isDigitChar d = true) : ¬(d = '-') := by
  intro hd
  rw [hd] at h
  exact absurd h (by decide)

/-- C3 (amended): the `Scalar(Int)` decoder `regex(r"-?\\d+(?![.eE])")`
parses a signed base-10 integer literal; with no trailing float or
exponent marker the whole digit run is consumed.  When the digit run is
trailed by `.`, `e` or `E`, the decoder fails outright only when the
run is a single digit (e.g. `"1e3"`, `"3.14"`); a run of k ≥ 2 digits
instead backtracks and the decoder succeeds on the first k−1 digits,
leaving the last digit and the marker unconsumed (e.g. `"12.5"`
decodes to `1` with remainder `"2.5"`). -/
theorem integer_regex_spec :
    ∀ (neg : Bool) (ds : List Char) (hne : ds ≠ [])
      (hdig : ∀ x ∈ ds, isDigitChar x = true),
      integerDecode (signChars neg ++ ds) = some (intValOf neg ds, [])
      ∧ (∀ c cs, isDigitChar c = false → isFloatMarker c = false →
          integerDecode (signChars neg ++ ds ++ c :: cs) = some (intValOf neg ds, c :: cs))
      ∧ ∀ c cs, isFloatMarker c = true →
          (ds.length = 1 → integerDecode (signChars neg ++ ds ++ c :: cs) = none)
          ∧ (2 ≤ ds.length →
              integerDecode (signChars neg ++ ds ++ c :: cs)
                = some (intValOf neg ds.dropLast, ds.getLast hne :: c :: cs)) := by
  intro neg ds hne hdig
  obtain ⟨d, ds', rfl⟩ : ∃ d ds', ds = d :: ds' := by
    cases ds with
    | nil => exact absurd rfl hne
    | cons d ds' => exact ⟨d, ds', rfl⟩
  have hd : isDigitChar d = true := hdig d (by simp)
  have hdd : ¬(d = '-') := digit_ne_dash d hd
  refine ⟨?_, ?_, ?_⟩
  · -- no remainder at all
    have hLA : digitsLookahead (d :: ds') = some (d :: ds', []) := by
      have := digitsLookahead_no_marker (d :: ds') [] hne hdig (by intro c hc; simp at hc)
      simpa using this
    cases neg with
    | false =>
      simp only [signChars, List.nil_append, integerDecode,
        intRegexMatch_cons_not_dash d ds' hdd, hLA]
      simp only [Option.map_some']
      rw [strToInt_cons_not_dash d ds' hdd]
      simp [intValOf]
    | true =>
      simp only [signChars, List.cons_append, List.nil_append, integerDecode,
        intRegexMatch, hLA, Option.map_some]
      simp [strToInt, intValOf]
  · -- remainder head neither digit nor marker
    intro c cs hcd hcm
    have hLA : digitsLookahead (d :: (ds' ++ c :: cs)) = some (d :: ds', c :: cs) := by
      have := digitsLookahead_no_marker (d :: ds') (c :: cs) hne hdig
        (by intro x hx; simp at hx; subst hx; exact ⟨hcd, hcm⟩)
      simpa using this
    cases neg with
    | false =>
      simp only [signChars, List.nil_append, List.cons_append, integerDecode,
        intRegexMatch_cons_not_dash d (ds' ++ c :: cs) hdd, hLA]
      simp only [Option.map_some']
      rw [strToInt_cons_not_dash d ds' hdd]
      simp [intValOf]
    | true =>
      simp only [signChars, List.cons_append, List.nil_append, integerDecode,
        intRegexMatch, hLA, Option.map_some]
      simp [strToInt, intValOf]
  · -- remainder head is a float marker
    intro c cs hm
    constructor
    · -- single digit: hard failure
      intro hlen
      have hds' : ds' = [] := by
        cases ds' with
        | nil => rfl
        | cons e es => simp at hlen
      subst hds'
      have hLA : digitsLookahead (d :: (c :: cs)) = none := by
        have := digitsLookahead_marker_single d c cs hd hm
        simpa using this
      cases neg with
      | false =>
        simp only [signChars, List.nil_append, List.cons_append, integerDecode,
          intRegexMatch_cons_not_dash d (c :: cs) hdd, hLA]
        rfl
      | true =>
        simp only [signChars, List.cons_append, List.nil_append, integerDecode,
          intRegexMatch, hLA]
        rfl
    · -- k ≥ 2 digits: backtrack by one digit
      intro hlen
      obtain ⟨e, es, rfl⟩ : ∃ e es, ds' = e :: es := by
        cases ds' with
        | nil => simp at hlen
        | cons e es => exact ⟨e, es, rfl⟩
      have hLA : digitsLookahead (d :: e :: (es ++ c :: cs))
          = some ((d :: e :: es).dropLast, (d :: e :: es).getLast (by simp) :: c :: cs) := by
        have h0 := digitsLookahead_marker_multi d e es c cs hdig hm
        rw [show (d :: e :: es) ++ c :: cs = d :: e :: (es ++ c :: cs) from by simp] at h0
        exact h0
      cases neg with
      | false =>
        simp only [signChars, List.nil_append, List.cons_append, integerDecode]
        rw [intRegexMatch_cons_not_dash d (e :: (es ++ c :: cs)) hdd, hLA,
          show (d :: e :: es).dropLast = d :: (e :: es).dropLast from rfl]
        simp only [Option.map_some']
        rw [strToInt_cons_not_dash d ((e :: es).dropLast) hdd]
        simp [intValOf]
      | true =>
        simp only [signChars, List.cons_append, List.nil_append, integerDecode,
          intRegexMatch, hLA]
        simp only [Option.map_some']
        rw [show (d :: e :: es).dropLast = d :: (e :: es).dropLast from rfl]
        simp [strToInt, intValOf]

/-- C3 (amended): the `Scalar(Int)` decoder parses a signed base-10
integer literal; it rejects a trailing float/exponent marker outright
only when the digit run before the marker is a single digit, and
otherwise backtracks, succeeding on all but the last digit of the run
(so it can succeed on a proper prefix of the digits). -/
theorem integer_decoder_lookahead_behavior :
    ∀ (neg : Bool) (ds : List Char) (hne : ds ≠ [])
      (hdig : ∀ x ∈ ds, isDigitChar x = true),
      integerDecode (signChars neg ++ ds) = some (intValOf neg ds, [])
      ∧ (∀ c cs, isDigitChar c = false → isFloatMarker c = false →
          integerDecode (signChars neg ++ ds ++ c :: cs) = some (intValOf neg ds, c :: cs))
      ∧ ∀ c cs, isFloatMarker c = true →
          (ds.length = 1 → integerDecode (signChars neg ++ ds ++ c :: cs) = none)
          ∧ (2 ≤ ds.length →
              integerDecode (signChars neg ++ ds ++ c :: cs)
                = some (intValOf neg ds.dropLast, ds.getLast hne :: c :: cs)) :=
  integer_regex_spec

/-- Witness for C3's amended theorem at concrete inputs: `"1e3"` fails
outright, `"42"` decodes fully. -/
theorem integer_decoder_lookahead_behavior_witness :
    integerDecode "1e3".toList = none ∧ integerDecode "42".toList = some (42, []) := by
  have h1 := integer_decoder_lookahead_behavior false ['1'] (by simp) (by decide)
  have h2 := integer_decoder_lookahead_behavior false ['4', '2'] (by simp) (by decide)
  constructor
  · exact (h1.2.2 'e' ['3'] (by decide)).1 rfl
  · have hv : intValOf false ['4', '2'] = 42 := by decide
    have := h2.1
    rw [hv] at this
    exact this

/-- `countNL` agrees with `List.count`. -/
theorem countNL_eq_count (cs : List Char) : countNL cs = cs.count '\n' := by
  induction cs with
  | nil => rfl
  | cons c cs ih =>
    by_cases h : c = '\n'
    · subst h
      simp [countNL, List.filter_cons, List.count_cons] at *
      omega
    · simp [countNL, List.filter_cons, List.count_cons, h] at *
      exact ih

/-- `rfindNL` at an appended last element: a trailing newline is found
at its own position, otherwise the search continues in the front part. -/
theorem rfindNL_append_singleton (xs : List Char) (x : Char) :
    rfindNL (xs ++ [x]) = if x = '\n' then some xs.length else rfindNL xs := by
  induction xs with
  | nil =>
    simp only [List.nil_append, rfindNL, List.length_nil]
  | cons c cs ih =>
    by_cases hx : x = '\n'
    · subst hx
      simp only [List.cons_append, rfindNL, List.append_eq]
      rw [ih]
      simp
    · simp only [List.cons_append, rfindNL, List.append_eq, List.length_cons]
      rw [ih]
      simp [hx]

/-- The number of characters after the last newline: `rfindNL` against
the reversed `takeWhile`. -/
theorem rfindNL_column (l : List Char) :
    (match rfindNL l with
      | none => (l.reverse.takeWhile (fun c => !(c = '\n'))).length = l.length
      | some j => j + 1 ≤ l.length
          ∧ (l.reverse.takeWhile (fun c => !(c = '\n'))).length = l.length - (j + 1)) := by
  induction l using List.reverseRecOn with
  | nil => simp [rfindNL]
  | append_singleton xs x ih =>
    rw [rfindNL_append_singleton]
    by_cases hx : x = '\n'
    · subst hx
      rw [if_pos rfl]
      constructor
      · simp
      · simp
    · rw [if_neg hx]
      cases hr : rfindNL xs with
      | none =>
        simp only [hr] at ih
        simp only [hr]
        simp only [List.reverse_append, List.reverse_cons, List.reverse_nil,
          List.nil_append, List.cons_append, List.takeWhile_cons, List.length_append,
          List.length_cons, List.length_nil]
        have hxb : (!decide (x = '\n')) = true := by simp [hx]
        rw [hxb]
        simp only [if_true, List.length_cons, ih]
      | some j =>
        simp only [hr] at ih
        obtain ⟨ih1, ih2⟩ := ih
        simp only [hr]
        refine ⟨by simp [List.length_append]; omega, ?_⟩
        simp only [List.reverse_append, List.reverse_cons, List.reverse_nil,
          List.nil_append, List.cons_append, List.takeWhile_cons, List.length_append,
          List.length_cons, List.length_nil]
        have hxb : (!decide (x = '\n')) = true := by simp [hx]
        rw [hxb]
        simp only [if_true, List.length_cons, ih2]
        omega

/-- The clamped index is in `[0, len(text)]`. -/
theorem clampIdx_le (text : List Char) (i : Int) : clampIdx text i ≤ text.length := by
  unfold clampIdx
  split
  · omega
  · split
    · omega
    · rename_i h1 h2
      omega

/-- C8 (counterexample): the stored `index` attribute of a `ParseError`
is the raw primitive index, not clamped to `[0, len(text)]`:
translating a failure at index 99 over the two-character text `"ab"`
stores 99 (only the line/column derivation clamps). -/
theorem parse_error_index_not_clamped :
    (fromParsyError "ab".toList 99 (.emsg "x")).index = 99
    ∧ ¬((fromParsyError "ab".toList 99 (.emsg "x")).index ≤ ("ab".toList.length : Int)) := by
  exact ⟨rfl, by decide⟩

/-- C8 (amended): the error translator clamps the index to
`[0, len(text)]` before deriving positions (the stored `index`
attribute itself keeps the raw value); the resulting line is one plus
the number of newline characters before the clamped index; the column
is one-based, counting the characters after the most recent newline
before the clamped index (or from the start of the text); and a set of
expected alternatives is rendered as the sorted, comma-joined string. -/
theorem error_translation_amended :
    ∀ (text : List Char) (index : Int) (alts : List String) (msg : String),
      clampIdx text index ≤ text.length
      ∧ (fromParsyError text index (.eset alts)).line
          = (text.take (clampIdx text index)).count '\n' + 1
      ∧ (fromParsyError text index (.eset alts)).column
          = ((text.take (clampIdx text index)).reverse.takeWhile
              (fun c => !(c = '\n'))).length + 1
      ∧ (fromParsyError text index (.eset alts)).expected
          = String.intercalate ", " (sortStrings alts)
      ∧ (sortStrings alts).Sorted (· ≤ ·)
      ∧ (sortStrings alts).Perm alts
      ∧ (fromParsyError text index (.emsg msg)).expected = msg := by
  intro text index alts msg
  have hlen : (text.take (clampIdx text index)).length = clampIdx text index := by
    rw [List.length_take, Nat.min_eq_left (clampIdx_le text index)]
  refine ⟨clampIdx_le text index, ?_, ?_, rfl, ?_, ?_, rfl⟩
  · -- line
    have hline : (fromParsyError text index (.eset alts)).line
        = countNL (text.take (clampIdx text index)) + 1 := rfl
    rw [hline, countNL_eq_count]
  · -- column
    show (getLineColumn text index).2 = _
    unfold getLineColumn
    dsimp only
    have hcol := rfindNL_column (text.take (clampIdx text index))
    cases hr : rfindNL (text.take (clampIdx text index)) with
    | none =>
      rw [hr] at hcol
      dsimp only at hcol
      dsimp only
      rw [hcol, hlen]
      simp
    | some j =>
      rw [hr] at hcol
      dsimp only at hcol
      obtain ⟨hj, htw⟩ := hcol
      dsimp only
      rw [htw, hlen]
      rw [hlen] at hj
      have h1 : ¬(clampIdx text index - j = 0) := by omega
      rw [if_neg h1]
      revert hj
      generalize clampIdx text index = k
      intro hj
      have hpos : 1 ≤ k - j := Nat.le_sub_of_add_le (by rw [Nat.add_comm]; exact hj)
      calc k - j = k - j - 1 + 1 := (Nat.sub_add_cancel hpos).symm
        _ = k - (j + 1) + 1 := by rw [Nat.sub_sub]
  · -- sortedness
    have hs := @List.sorted_mergeSort String (fun a b => decide (a ≤ b))
      (fun a b c hab hbc =>
        decide_eq_true (le_trans (of_decide_eq_true hab) (of_decide_eq_true hbc)))
      (fun a b => by simpa using le_total a b) alts
    exact hs.imp (fun h => of_decide_eq_true h)
  · exact List.mergeSort_perm alts (fun a b => decide (a ≤ b))

/-- The base component of `baseAndKind` is the optional-unwrapped
annotation, independent of the strict flag. -/
theorem baseAndKind_fst (strict : Bool) (fd : FieldDef) :
    (baseAndKind strict fd.ann).1 = baseOf fd := by
  unfold baseAndKind baseOf
  cases isOptionalAnn fd.ann <;> rfl

/-- Lookup in an extended cache. -/
theorem cacheLookup_cons (b b' : Ann) (p : P) (cache : List (Ann × P)) :
    cacheLookup ((b, p) :: cache) b'
      = if Ann.beq b b' then some p else cacheLookup cache b' := rfl

/-- The empty cache satisfies the invariant for the empty prefix. -/
theorem cacheInv_nil (gfuel : Nat) : CacheInv gfuel [] [] := by
  intro b
  simp [firstWithBase, cacheLookup, List.find?]

/-- Extending the processed prefix on a cache hit preserves the
invariant. -/
theorem cacheInv_extend_hit (gfuel : Nat) (pre : List FieldDef)
    (cache : List (Ann × P)) (fd : FieldDef) (p : P)
    (hinv : CacheInv gfuel pre cache)
    (hhit : cacheLookup cache (baseOf fd) = some p) :
    CacheInv gfuel (pre ++ [fd]) cache := by
  intro b
  have hbv := hinv b
  unfold firstWithBase at hbv ⊢
  rw [List.find?_append]
  cases h0 : pre.find? (fun x => Ann.beq (baseOf x) b) with
  | some f0 =>
    rw [h0] at hbv
    exact hbv
  | none =>
    rw [h0] at hbv
    have hbv' : cacheLookup cache b = none := hbv
    cases hbeq : Ann.beq (baseOf fd) b with
    | true =>
      exfalso
      have hcongr := cacheLookup_congr cache hbeq
      rw [hhit, hbv'] at hcongr
      exact Option.noConfusion hcongr
    | false =>
      have hfind : [fd].find? (fun x => Ann.beq (baseOf x) b) = none := by
        simp [List.find?, hbeq]
      rw [hfind]
      exact hbv'

/-- Extending the processed prefix on a cache miss (with the freshly
generated parser inserted) preserves the invariant. -/
theorem cacheInv_extend_miss (gfuel : Nat) (pre : List FieldDef)
    (cache : List (Ann × P)) (fd : FieldDef) (p : P)
    (hinv : CacheInv gfuel pre cache)
    (hmiss : cacheLookup cache (baseOf fd) = none)
    (hgen : generateFieldParserF gfuel (baseOf fd) fd.meta false = .ok p) :
    CacheInv gfuel (pre ++ [fd]) ((baseOf fd, p) :: cache) := by
  intro b
  have hbv := hinv b
  unfold firstWithBase at hbv ⊢
  rw [List.find?_append]
  cases h0 : pre.find? (fun x => Ann.beq (baseOf x) b) with
  | some f0 =>
    rw [h0] at hbv
    have hbv' : ∃ q, generateFieldParserF gfuel (baseOf f0) f0.meta false = .ok q
        ∧ cacheLookup cache b = some q := hbv
    obtain ⟨q, hq1, hq2⟩ := hbv'
    have hne : Ann.beq (baseOf fd) b = false := by
      cases h : Ann.beq (baseOf fd) b
      · rfl
      · exfalso
        have hcongr := cacheLookup_congr cache h
        rw [hmiss, hq2] at hcongr
        exact Option.noConfusion hcongr
    show ∃ q, generateFieldParserF gfuel (baseOf f0) f0.meta false = .ok q
        ∧ cacheLookup ((baseOf fd, p) :: cache) b = some q
    refine ⟨q, hq1, ?_⟩
    show (if Ann.beq (baseOf fd) b then some p else cacheLookup cache b) = some q
    rw [hne]
    show cacheLookup cache b = some q
    exact hq2
  | none =>
    rw [h0] at hbv
    have hbv' : cacheLookup cache b = none := hbv
    cases hbeq : Ann.beq (baseOf fd) b with
    | true =>
      have hfind : [fd].find? (fun x => Ann.beq (baseOf x) b) = some fd := by
        simp [List.find?, hbeq]
      rw [hfind]
      show ∃ q, generateFieldParserF gfuel (baseOf fd) fd.meta false = .ok q
          ∧ cacheLookup ((baseOf fd, p) :: cache) b = some q
      refine ⟨p, hgen, ?_⟩
      show (if Ann.beq (baseOf fd) b then some p else cacheLookup cache b) = some p
      rw [hbeq]
      rfl
    | false =>
      have hfind : [fd].find? (fun x => Ann.beq (baseOf x) b) = none := by
        simp [List.find?, hbeq]
      rw [hfind]
      show (if Ann.beq (baseOf fd) b then some p else cacheLookup cache b) = none
      rw [hbeq]
      exact hbv'

/-- The per-field generation loop with any cache satisfying the
invariant: every produced entry carries the parser generated from the
base annotation and metadata of the first field (in the whole model)
whose base annotation is Python-equal. -/
theorem genFieldEntries_cache_spec :
    ∀ (gfuel : Nat) (strict : Bool) (rest : List FieldDef) (pre : List FieldDef)
      (cache : List (Ann × P)) (out : List (String × P × OptKind)),
      CacheInv gfuel pre cache →
      genFieldEntries gfuel strict cache rest = .ok out →
      out.length = rest.length
      ∧ ∀ (i : Nat) (fd : FieldDef), rest[i]? = some fd →
          ∃ (f0 : FieldDef) (p : P) (k : OptKind),
            firstWithBase (pre ++ rest) (baseOf fd) = some f0
            ∧ generateFieldParserF gfuel (baseOf f0) f0.meta false = .ok p
            ∧ out[i]? = some (fd.name, p, k) := by
  intro gfuel strict rest
  induction rest with
  | nil =>
    intro pre cache out hinv hok
    simp only [genFieldEntries] at hok
    cases hok
    exact ⟨rfl, by intro i fd h; simp at h⟩
  | cons fd rest ih =>
    intro pre cache out hinv hok
    simp only [genFieldEntries] at hok
    rw [baseAndKind_fst strict fd] at hok
    cases hl : cacheLookup cache (baseOf fd) with
    | some p =>
      rw [hl] at hok
      cases hrec : genFieldEntries gfuel strict cache rest with
      | error e => rw [hrec] at hok; exact absurd hok (by simp)
      | ok es =>
        rw [hrec] at hok
        have hout : out = (fd.name, p, (baseAndKind strict fd.ann).2) :: es := by
          cases hok
          rfl
        subst hout
        have hinv' : CacheInv gfuel (pre ++ [fd]) cache :=
          cacheInv_extend_hit gfuel pre cache fd p hinv hl
        obtain ⟨ihlen, ihspec⟩ := ih (pre ++ [fd]) cache es hinv' hrec
        refine ⟨by simp [ihlen], ?_⟩
        intro i fd' hi
        cases i with
        | zero =>
          simp only [List.getElem?_cons_zero] at hi
          cases hi
          have hb := hinv (baseOf fd)
          unfold CacheInv at hb
          cases h0 : firstWithBase pre (baseOf fd) with
          | some f0 =>
            rw [h0] at hb
            obtain ⟨q, hq1, hq2⟩ := hb
            rw [hl] at hq2
            cases hq2
            refine ⟨f0, p, (baseAndKind strict fd.ann).2, ?_, hq1, by simp⟩
            unfold firstWithBase at h0 ⊢
            rw [List.find?_append, h0]
            rfl
          | none =>
            rw [h0] at hb
            have : cacheLookup cache (baseOf fd) = none := hb
            rw [this] at hl
            exact absurd hl (by simp)
        | succ n =>
          simp only [List.getElem?_cons_succ] at hi
          obtain ⟨f0, q, k, hf0, hq, hout⟩ := ihspec n fd' hi
          refine ⟨f0, q, k, ?_, hq, by simpa using hout⟩
          rw [show pre ++ fd :: rest = (pre ++ [fd]) ++ rest from by simp] at *
          exact hf0
    | none =>
      rw [hl] at hok
      dsimp only at hok
      cases hgen : generateFieldParserF gfuel (baseOf fd) fd.meta false with
      | error e => rw [hgen] at hok; exact absurd hok (by simp)
      | ok p =>
        rw [hgen] at hok
        dsimp only at hok
        cases hrec : genFieldEntries gfuel strict ((baseOf fd, p) :: cache) rest with
        | error e => rw [hrec] at hok; exact absurd hok (by simp)
        | ok es =>
          rw [hrec] at hok
          have hout : out = (fd.name, p, (baseAndKind strict fd.ann).2) :: es := by
            cases hok
            rfl
          subst hout
          have hinv' : CacheInv gfuel (pre ++ [fd]) ((baseOf fd, p) :: cache) :=
            cacheInv_extend_miss gfuel pre cache fd p hinv hl hgen
          obtain ⟨ihlen, ihspec⟩ := ih (pre ++ [fd]) ((baseOf fd, p) :: cache) es hinv' hrec
          refine ⟨by simp [ihlen], ?_⟩
          intro i fd' hi
          cases i with
          | zero =>
            simp only [List.getElem?_cons_zero] at hi
            cases hi
            have hpre : firstWithBase pre (baseOf fd) = none := by
              have hb := hinv (baseOf fd)
              unfold CacheInv at hb
              cases h0 : firstWithBase pre (baseOf fd) with
              | some f0 =>
                rw [h0] at hb
                obtain ⟨q, hq1, hq2⟩ := hb
                rw [hl] at hq2
                exact absurd hq2 (by simp)
              | none => rfl
            refine ⟨fd, p, (baseAndKind strict fd.ann).2, ?_, hgen, by simp⟩
            unfold firstWithBase at hpre ⊢
            rw [List.find?_append, hpre]
            simp [List.find?, Ann.beq_refl_ann]
          | succ n =>
            simp only [List.getElem?_cons_succ] at hi
            obtain ⟨f0, q, k, hf0, hq, hout⟩ := ihspec n fd' hi
            refine ⟨f0, q, k, ?_, hq, by simpa using hout⟩
            rw [show pre ++ fd :: rest = (pre ++ [fd]) ++ rest from by simp] at *
            exact hf0

/-- C10: within one model, `build_model_parser` caches field parsers
in a dict keyed by the optional-unwrapped base annotation, with Python
`==` / `hash` as the key equality (order-insensitive on `Union` and
`Literal` members): every produced entry carries the parser generated
from the base annotation and metadata of the *first* field whose base
annotation is Python-equal (so metadata on a later field with an equal
annotation is ignored), and any two fields with Python-equal base
annotations — including e.g. `int | str` and `str | int` — share one
and the same parser. -/
theorem per_model_parser_cache :
    ∀ (gfuel : Nat) (strict : Bool) (fields : List FieldDef)
      (out : List (String × P × OptKind)),
      genFieldEntries gfuel strict [] fields = .ok out →
      out.length = fields.length
      ∧ (∀ (i : Nat) (fd : FieldDef), fields[i]? = some fd →
          ∃ (f0 : FieldDef) (p : P) (k : OptKind),
            firstWithBase fields (baseOf fd) = some f0
            ∧ generateFieldParserF gfuel (baseOf f0) f0.meta false = .ok p
            ∧ out[i]? = some (fd.name, p, k))
      ∧ ∀ (i j : Nat) (fdi fdj : FieldDef) (ei ej : String × P × OptKind),
          fields[i]? = some fdi → fields[j]? = some fdj →
          out[i]? = some ei → out[j]? = some ej →
          Ann.beq (baseOf fdi) (baseOf fdj) = true → ei.2.1 = ej.2.1 := by
  intro gfuel strict fields out hok
  have hmain := genFieldEntries_cache_spec gfuel strict fields [] [] out
    (cacheInv_nil gfuel) hok
  obtain ⟨hlen, hspec⟩ := hmain
  simp only [List.nil_append] at hspec
  refine ⟨hlen, hspec, ?_⟩
  intro i j fdi fdj ei ej hfi hfj hoi hoj hbase
  obtain ⟨f0, p, k, hf0, hp, hout⟩ := hspec i fdi hfi
  obtain ⟨f0', p', k', hf0', hp', hout'⟩ := hspec j fdj hfj
  rw [firstWithBase_congr fields hbase] at hf0
  rw [hf0] at hf0'
  cases hf0'
  rw [hp] at hp'
  cases hp'
  rw [hoi] at hout
  rw [hoj] at hout'
  cases hout
  cases hout'
  rfl

/-- Witness for C10's theorem at a concrete model: a field annotated
`int | str` overriding its parser with `literal("A")`, then a field
annotated `str | int` overriding with `literal("B")`.  The two base
annotations are Python-equal, so the dict lookup is a hit: the second
field reuses the cached `literal("A")` and its own metadata is ignored,
and the theorem's sharing clause applies to the pair. -/
theorem per_model_parser_cache_witness :
    genFieldEntries 5 true [] cacheDemoFields
      = .ok [("a", .pLit "A".toList, .okNone), ("b", .pLit "A".toList, .okNone)]
    ∧ ([("a", P.pLit "A".toList, OptKind.okNone),
        ("b", P.pLit "A".toList, OptKind.okNone)]).length = cacheDemoFields.length
    ∧ (("a", P.pLit "A".toList, OptKind.okNone) : String × P × OptKind).2.1
        = (("b", P.pLit "A".toList, OptKind.okNone) : String × P × OptKind).2.1 := by
  refine ⟨rfl, ?_, ?_⟩
  · exact (per_model_parser_cache 5 true cacheDemoFields
      [("a", .pLit "A".toList, .okNone), ("b", .pLit "A".toList, .okNone)] rfl).1
  · exact (per_model_parser_cache 5 true cacheDemoFields
      [("a", .pLit "A".toList, .okNone), ("b", .pLit "A".toList, .okNone)] rfl).2.2
      0 1
      ⟨"a", intStrUnion, some { parser := some (.pLit "A".toList) }⟩
      ⟨"b", strIntUnion, some { parser := some (.pLit "B".toList) }⟩
      ("a", .pLit "A".toList, .okNone) ("b", .pLit "A".toList, .okNone)
      rfl rfl rfl rfl (by decide)

/-- The numeric value of a decimal digit character. -/
theorem digitChar_val (d : Nat) (h : d < 10) : (digitChar d).toNat - 48 = d := by
  interval_cases d <;> rfl

/-- `digitChar` produces digit characters. -/
theorem digitChar_digit (d : Nat) (h : d < 10) : isDigitChar (digitChar d) = true := by
  interval_cases d <;> rfl

/-- `digitsToNat` over a trailing digit. -/
theorem digitsToNat_append (xs : List Char) (c : Char) :
    digitsToNat (xs ++ [c]) = digitsToNat xs * 10 + (c.toNat - 48) := by
  unfold digitsToNat
  rw [List.foldl_append]
  rfl

/-- Correctness of the fueled decimal rendering: the digits evaluate
back to the number, are nonempty, and are all digit characters. -/
theorem natDigitsF_spec :
    ∀ (fuel n : Nat), n < fuel →
      digitsToNat (natDigitsF fuel n) = n
      ∧ natDigitsF fuel n ≠ []
      ∧ ∀ c ∈ natDigitsF fuel n, isDigitChar c = true := by
  intro fuel
  induction fuel with
  | zero => intro n h; omega
  | succ fuel ih =>
    intro n h
    by_cases h10 : n < 10
    · simp only [natDigitsF, if_pos h10]
      refine ⟨?_, by simp, ?_⟩
      · have h1 : digitsToNat [digitChar n] = (digitChar n).toNat - 48 := by
          simp [digitsToNat]
        rw [h1, digitChar_val n h10]
      · intro c hc
        simp at hc
        subst hc
        exact digitChar_digit n h10
    · simp only [natDigitsF, if_neg h10]
      have hdiv : n / 10 < n := Nat.div_lt_self (by omega) (by omega)
      have hrec : n / 10 < fuel := by omega
      obtain ⟨ih1, ih2, ih3⟩ := ih (n / 10) hrec
      refine ⟨?_, by simp [ih2], ?_⟩
      · rw [digitsToNat_append, ih1, digitChar_val (n % 10) (Nat.mod_lt n (by omega))]
        omega
      · intro c hc
        rw [List.mem_append] at hc
        rcases hc with hc | hc
        · exact ih3 c hc
        · simp at hc
          subst hc
          exact digitChar_digit (n % 10) (Nat.mod_lt n (by omega))

/-- `natDigits` specification. -/
theorem natDigits_spec (n : Nat) :
    digitsToNat (natDigits n) = n
    ∧ natDigits n ≠ []
    ∧ ∀ c ∈ natDigits n, isDigitChar c = true :=
  natDigitsF_spec (n + 1) n (by omega)

/-- Decoding the canonical decimal rendering of an integer: the whole
rendering is consumed and the value recovered, provided the following
character (if any) is neither a digit nor a float marker. -/
theorem integerDecode_encode (i : Int) (rest : List Char)
    (hrest : ∀ c, rest.head? = some c → isDigitChar c = false ∧ isFloatMarker c = false) :
    integerDecode (intToDecimal i ++ rest) = some (i, rest) := by
  obtain ⟨hval, hne, hdig⟩ := natDigits_spec i.natAbs
  by_cases hneg : i < 0
  · have hform : intToDecimal i = '-' :: natDigits i.natAbs := by
      unfold intToDecimal
      rw [if_pos hneg]
    have hv : intValOf true (natDigits i.natAbs) = i := by
      show -(digitsToNat (natDigits i.natAbs) : Int) = i
      rw [hval]
      omega
    cases hr : rest with
    | nil =>
      have h1 := (integer_regex_spec true (natDigits i.natAbs) hne hdig).1
      rw [hv] at h1
      rw [hform]
      simpa [signChars] using h1
    | cons c cs =>
      have hc := hrest c (by rw [hr]; rfl)
      have h1 := (integer_regex_spec true (natDigits i.natAbs) hne hdig).2.1 c cs hc.1 hc.2
      rw [hv] at h1
      rw [hform]
      simpa [signChars] using h1
  · have hform : intToDecimal i = natDigits i.natAbs := by
      unfold intToDecimal
      rw [if_neg hneg]
    have hv : intValOf false (natDigits i.natAbs) = i := by
      show (digitsToNat (natDigits i.natAbs) : Int) = i
      rw [hval]
      omega
    cases hr : rest with
    | nil =>
      have h1 := (integer_regex_spec false (natDigits i.natAbs) hne hdig).1
      rw [hv] at h1
      rw [hform]
      simpa [signChars] using h1
    | cons c cs =>
      have hc := hrest c (by rw [hr]; rfl)
      have h1 := (integer_regex_spec false (natDigits i.natAbs) hne hdig).2.1 c cs hc.1 hc.2
      rw [hv] at h1
      rw [hform]
      simpa [signChars] using h1

/-- A digit character is not whitespace. -/
theorem digit_not_space (c : Char) (h : isDigitChar c = true) : isSpaceChar c = false := by
  cases hs : isSpaceChar c
  · rfl
  · exfalso
    simp only [isSpaceChar, Bool.or_eq_true, decide_eq_true_eq] at hs
    rcases hs with ((((rfl | rfl) | rfl) | rfl) | rfl) | rfl <;> exact absurd h (by decide)

/-- A whitespace character is neither a digit nor a float marker. -/
theorem space_not_digit_marker (c : Char) (h : isSpaceChar c = true) :
    isDigitChar c = false ∧ isFloatMarker c = false := by
  simp only [isSpaceChar, Bool.or_eq_true, decide_eq_true_eq] at h
  rcases h with ((((rfl | rfl) | rfl) | rfl) | rfl) | rfl <;> exact ⟨by decide, by decide⟩

/-- `pattern(r"\\S+")` on a whitespace-free token followed by
whitespace (or nothing): the whole token matches. -/
theorem nonWSDecode_token (s rest : List Char) (hne : s ≠ [])
    (hs : ∀ c ∈ s, isSpaceChar c = false)
    (hrest : ∀ c, rest.head? = some c → isSpaceChar c = true) :
    nonWSDecode (s ++ rest) = some (s, rest) := by
  obtain ⟨sp1, sp2⟩ := span_append (fun c => !isSpaceChar c) s rest
    (by intro x hx; simp [hs x hx]) (by intro c hc; simp [hrest c hc])
  unfold nonWSDecode
  rw [sp1, sp2]
  cases s with
  | nil => exact absurd rfl hne
  | cons d ds => rfl

/-- `whitespace()` on a single space followed by a non-space character
(or nothing): exactly the space is consumed. -/
theorem wsDecode_single (rest : List Char)
    (hrest : ∀ c, rest.head? = some c → isSpaceChar c = false) :
    wsDecode (' ' :: rest) = some ([' '], rest) := by
  obtain ⟨sp1, sp2⟩ := span_append isSpaceChar [' '] rest
    (by intro x hx; simp at hx; subst hx; rfl) hrest
  simp only [List.cons_append, List.nil_append] at sp1 sp2
  unfold wsDecode
  rw [sp1, sp2]

/-- The encoded token of a well-typed row is nonempty and does not
start with whitespace. -/
theorem rowTok_head (x : String × Ann × Val) (hx : TokRow x) :
    formatP (rowParser x.2.1) x.2.2 ≠ []
    ∧ ∀ c, (formatP (rowParser x.2.1) x.2.2).head? = some c → isSpaceChar c = false := by
  obtain ⟨n, a, v⟩ := x
  cases a <;> cases v <;> (try exact hx.elim)
  · -- int field
    rename_i i
    show intToDecimal i ≠ [] ∧ ∀ c, (intToDecimal i).head? = some c → isSpaceChar c = false
    obtain ⟨hval, hne, hdig⟩ := natDigits_spec i.natAbs
    by_cases hneg : i < 0
    · have hform : intToDecimal i = '-' :: natDigits i.natAbs := by
        unfold intToDecimal
        rw [if_pos hneg]
      rw [hform]
      refine ⟨by simp, ?_⟩
      intro c hc
      simp at hc
      subst hc
      rfl
    · have hform : intToDecimal i = natDigits i.natAbs := by
        unfold intToDecimal
        rw [if_neg hneg]
      rw [hform]
      refine ⟨hne, ?_⟩
      intro c hc
      have hmem : c ∈ natDigits i.natAbs := by
        cases hd : natDigits i.natAbs with
        | nil => rw [hd] at hc; exact absurd hc (by simp)
        | cons d ds =>
          rw [hd] at hc
          simp at hc
          subst hc
          simp [hd]
      exact digit_not_space c (hdig c hmem)
  · -- str field
    rename_i s
    obtain ⟨hne, hs⟩ := hx
    show s ≠ [] ∧ ∀ c, (s : List Char).head? = some c → isSpaceChar c = false
    refine ⟨hne, ?_⟩
    intro c hc
    have hmem : c ∈ s := by
      cases hd : s with
      | nil => exact absurd hd hne
      | cons d ds =>
        rw [hd] at hc
        simp at hc
        subst hc
        simp [hd]
    exact hs c hmem

/-- The tail encoding starts with the separator space (when nonempty). -/
theorem encWithSep_head (l : List (String × Ann × Val)) :
    ∀ c, (encWithSep l).head? = some c → isSpaceChar c = true := by
  intro c hc
  cases l with
  | nil => simp [encWithSep] at hc
  | cons x rest =>
    simp only [encWithSep, List.head?_cons] at hc
    cases hc
    rfl

/-- Decoding a well-typed row token from its own encoding, with a
whitespace-or-empty remainder. -/
theorem rowTok_decode (env : P) (f : Nat) (x : String × Ann × Val) (hx : TokRow x)
    (rest : List Char) (hrest : ∀ c, rest.head? = some c → isSpaceChar c = true) :
    runP env (f + 1) (rowParser x.2.1) (formatP (rowParser x.2.1) x.2.2 ++ rest)
      = some (some (x.2.2, rest)) := by
  obtain ⟨n, a, v⟩ := x
  cases a <;> cases v <;> (try exact hx.elim)
  · -- int field
    rename_i i
    show runP env (f + 1) .pInt (intToDecimal i ++ rest) = _
    have hdec := integerDecode_encode i rest
      (fun c hc => space_not_digit_marker c (hrest c hc))
    simp [runP, hdec]
  · -- str field
    rename_i s
    obtain ⟨hne, hs⟩ := hx
    show runP env (f + 1) .pStr (s ++ rest) = _
    have hdec := nonWSDecode_token s rest hne hs hrest
    simp [runP, hdec]

/-- With distinct field names, `getattr` on the instance mapping
returns each row's own value. -/
theorem rowsDict_lookup :
    ∀ (l : List (String × Ann × Val)), (l.map (fun x => x.1)).Nodup →
      ∀ x ∈ l, dictGet (rowsDict l) x.1 = x.2.2 := by
  intro l
  induction l with
  | nil => intro _ x hx; simp at hx
  | cons y rest ih =>
    intro hnd x hx
    rw [List.map_cons, List.nodup_cons] at hnd
    rcases List.mem_cons.1 hx with he | hx'
    · rw [he]
      show (if y.1 = y.1 then y.2.2 else dictGet (rowsDict rest) y.1) = y.2.2
      rw [if_pos rfl]
    · have hne : ¬(y.1 = x.1) := by
        intro he
        exact hnd.1 (he ▸ List.mem_map.2 ⟨x, hx', rfl⟩)
      show (if y.1 = x.1 then y.2.2 else dictGet (rowsDict rest) x.1) = x.2.2
      rw [if_neg hne]
      exact ih hnd.2 x hx'

/-- `TextCodec.serialize` on a row instance renders each row's own
token. -/
theorem codecSerialize_rows (l : List (String × Ann × Val))
    (hnd : (l.map (fun x => x.1)).Nodup) :
    codecSerialize " ".toList (rowsFps l) (rowsDict l)
      = joinSep " ".toList (l.map (fun x => formatP (rowParser x.2.1) x.2.2)) := by
  unfold codecSerialize
  congr 1
  unfold rowsFps
  rw [List.map_map]
  apply List.map_congr_left
  intro x hx
  show formatP (rowParser x.2.1) (dictGet (rowsDict l) x.1) = formatP (rowParser x.2.1) x.2.2
  rw [rowsDict_lookup l hnd x hx]

/-- The joined parts of a nonempty row list are the first token
followed by the separator-prefixed tail encoding. -/
theorem joinSep_cons_eq :
    ∀ (l : List (String × Ann × Val)) (p : List Char),
      joinSep " ".toList (p :: l.map (fun y => formatP (rowParser y.2.1) y.2.2))
        = p ++ encWithSep l := by
  intro l
  induction l with
  | nil => intro p; simp [joinSep, encWithSep]
  | cons y rest ih =>
    intro p
    rw [List.map_cons]
    show p ++ " ".toList ++ joinSep " ".toList
        (formatP (rowParser y.2.1) y.2.2 :: rest.map (fun y => formatP (rowParser y.2.1) y.2.2))
      = p ++ encWithSep (y :: rest)
    rw [ih (formatP (rowParser y.2.1) y.2.2)]
    show p ++ [' '] ++ (formatP (rowParser y.2.1) y.2.2 ++ encWithSep rest)
      = p ++ (' ' :: (formatP (rowParser y.2.1) y.2.2 ++ encWithSep rest))
    simp [List.append_assoc]

/-- One unfolding step of the sequenced field parsers. -/
theorem runP_fields_cons (env : P) (f : Nat) (n : String) (fp : P)
    (rest : List (String × P)) (input : List Char) :
    runP env (f + 1) (.pFields ((n, fp) :: rest)) input
      = (match runP env f fp input with
        | none => none
        | some none => some none
        | some (some (v, r1)) =>
          match runP env f (.pFields rest) r1 with
          | none => none
          | some none => some none
          | some (some (Val.vdict kvs, r2)) => some (some (Val.vdict ((n, v) :: kvs), r2))
          | some (some _) => some none) := rfl

/-- Decoding the separator-prefixed tail: each subsequent field parser
(prefixed by the whitespace separator) recovers its row's value, and
the whole tail input is consumed. -/
theorem decode_fields_tail (env : P) :
    ∀ (l : List (String × Ann × Val)), (∀ x ∈ l, TokRow x) →
      ∃ f, runP env f
          (.pFields (l.map (fun x => (x.1, P.pThen .pWS (rowParser x.2.1)))))
          (encWithSep l)
        = some (some (.vdict (rowsDict l), [])) := by
  intro l
  induction l with
  | nil => intro _; exact ⟨1, rfl⟩
  | cons x rest ih =>
    intro hty
    obtain ⟨f1, h1⟩ := ih (fun y hy => hty y (by simp [hy]))
    have hx := hty x (by simp)
    obtain ⟨hpne, hphd⟩ := rowTok_head x hx
    have hws : wsDecode (encWithSep (x :: rest))
        = some ([' '], formatP (rowParser x.2.1) x.2.2 ++ encWithSep rest) := by
      show wsDecode (' ' :: (formatP (rowParser x.2.1) x.2.2 ++ encWithSep rest)) = _
      apply wsDecode_single
      intro c hc
      cases hp : formatP (rowParser x.2.1) x.2.2 with
      | nil => exact absurd hp hpne
      | cons d ds =>
        rw [hp] at hc
        simp at hc
        subst hc
        exact hphd d (by rw [hp]; rfl)
    have hhead : ∀ f, runP env (f + 2) (.pThen .pWS (rowParser x.2.1)) (encWithSep (x :: rest))
        = some (some (x.2.2, encWithSep rest)) := by
      intro f
      show runP env ((f + 1) + 1) _ _ = _
      simp only [runP, hws]
      exact rowTok_decode env f x hx (encWithSep rest) (encWithSep_head rest)
    refine ⟨f1 + 3, ?_⟩
    rw [List.map_cons]
    show runP env ((f1 + 2) + 1) _ _ = _
    rw [runP_fields_cons]
    rw [hhead f1]
    dsimp only
    rw [runP_mono env f1 (f1 + 2) _ _ _ h1 (by omega)]
    rfl

/-- `TextCodec._build_field_parsers` on scalar-token rows: inference
succeeds and yields the integer/token parsers. -/
theorem buildFieldParsers_rows :
    ∀ (gfuel : Nat) (l : List (String × Ann × Val)), (∀ x ∈ l, TokRow x) →
      buildFieldParsers (gfuel + 1) (l.map (fun x => (x.1, x.2.1, none)))
        = .ok (rowsFps l) := by
  intro gfuel l
  induction l with
  | nil => intro _; rfl
  | cons x rest ih =>
    intro hty
    have hx := hty x (by simp)
    have hrest := ih (fun y hy => hty y (by simp [hy]))
    obtain ⟨n, a, v⟩ := x
    cases a <;> cases v <;> (try exact hx.elim)
    · have hg : getParserForField (gfuel + 1) none Ann.aint = .ok (some P.pInt) := rfl
      simp only [List.map_cons, buildFieldParsers, hg, hrest]
      rfl
    · have hg : getParserForField (gfuel + 1) none Ann.astr = .ok (some P.pStr) := rfl
      simp only [List.map_cons, buildFieldParsers, hg, hrest]
      rfl

/-- C1 (amended): round-trip on the scalar-token fragment.  For every
schema whose fields are the scalars `int` or `str`, with distinct field
names, and every well-typed instance whose `str` components are
nonempty and whitespace-free, the codec pipeline infers the field
parsers, and decoding the serialized instance consumes the whole text
and reproduces exactly the instance's field mapping; re-encoding the
decoded mapping therefore reproduces the original encoding
(`encode(decode(encode(v))) == encode(v)`). -/
theorem codec_roundtrip_scalar_tokens :
    ∀ (gfuel : Nat) (l : List (String × Ann × Val)),
      (∀ x ∈ l, TokRow x) → (l.map (fun x => x.1)).Nodup →
      buildFieldParsers (gfuel + 1) (l.map (fun x => (x.1, x.2.1, none))) = .ok (rowsFps l)
      ∧ (∃ f, runP (buildCombined codecDefaultSeparator (rowsFps l)) f
            (buildCombined codecDefaultSeparator (rowsFps l))
            (codecSerialize " ".toList (rowsFps l) (rowsDict l))
          = some (some (.vdict (rowsDict l), [])))
      ∧ ∀ kvs, Val.vdict kvs = Val.vdict (rowsDict l) →
          codecSerialize " ".toList (rowsFps l) kvs
            = codecSerialize " ".toList (rowsFps l) (rowsDict l) := by
  intro gfuel l hty hnd
  refine ⟨buildFieldParsers_rows gfuel l hty, ?_, ?_⟩
  · rw [codecSerialize_rows l hnd]
    cases l with
    | nil => exact ⟨1, rfl⟩
    | cons x rest =>
      have hx := hty x (by simp)
      have hcomb : buildCombined codecDefaultSeparator (rowsFps (x :: rest))
          = .pFields ((x.1, rowParser x.2.1)
              :: rest.map (fun y => (y.1, P.pThen .pWS (rowParser y.2.1)))) := by
        show P.pFields ((x.1, rowParser x.2.1)
            :: (rowsFps rest).map (fun np => (np.1, P.pThen codecDefaultSeparator np.2))) = _
        unfold rowsFps
        rw [List.map_map]
        rfl
      rw [hcomb, List.map_cons, joinSep_cons_eq rest (formatP (rowParser x.2.1) x.2.2)]
      obtain ⟨f1, h1⟩ := decode_fields_tail
        (.pFields ((x.1, rowParser x.2.1)
          :: rest.map (fun y => (y.1, P.pThen .pWS (rowParser y.2.1)))))
        rest (fun y hy => hty y (by simp [hy]))
      refine ⟨f1 + 3, ?_⟩
      rw [show f1 + 3 = (f1 + 2) + 1 from rfl, runP_fields_cons]
      rw [show runP
          (.pFields ((x.1, rowParser x.2.1)
            :: rest.map (fun y => (y.1, P.pThen .pWS (rowParser y.2.1)))))
          (f1 + 2) (rowParser x.2.1)
          (formatP (rowParser x.2.1) x.2.2 ++ encWithSep rest)
        = some (some (x.2.2, encWithSep rest)) from
        rowTok_decode _ (f1 + 1) x hx (encWithSep rest) (encWithSep_head rest)]
      dsimp only
      rw [runP_mono _ f1 (f1 + 2) _ _ _ h1 (by omega)]
      rfl
  · intro kvs hkvs
    cases hkvs
    rfl

/-- Witness for C1's amended theorem at a concrete two-field schema
`(a: int, b: str)` with instance `a = 42`, `b = "xy"`. -/
theorem codec_roundtrip_scalar_tokens_witness :
    buildFieldParsers 3 [("a", Ann.aint, none), ("b", Ann.astr, none)]
      = .ok [("a", P.pInt), ("b", P.pStr)]
    ∧ ∃ f, runP (buildCombined codecDefaultSeparator [("a", P.pInt), ("b", P.pStr)]) f
        (buildCombined codecDefaultSeparator [("a", P.pInt), ("b", P.pStr)])
        (codecSerialize " ".toList [("a", P.pInt), ("b", P.pStr)]
          [("a", Val.vint 42), ("b", Val.vstr "xy".toList)])
      = some (some (.vdict [("a", Val.vint 42), ("b", Val.vstr "xy".toList)], [])) := by
  have h := codec_roundtrip_scalar_tokens 2
    [("a", Ann.aint, Val.vint 42), ("b", Ann.astr, Val.vstr "xy".toList)]
    (by
      intro x hx
      simp at hx
      rcases hx with rfl | rfl
      · trivial
      · exact ⟨by decide, by decide⟩)
    (by decide)
  exact ⟨h.1, h.2.1⟩

end Parsedantic
